import Mathlib

/-!
Verification of the node-nano-rpc client (SkyzohKey/node-nano-rpc).

The development shallowly embeds the two `RaiClient` implementations found in
the repository (the `http`/`https`-module based one and the older
`request`-library based one): the request builder `_buildRPCReq`, the
transport `_send`, and the public method table entries the claims mention.

JavaScript runtime facts the code relies on are modelled explicitly:
  * JS values reaching `JSON.stringify` are modelled by `JsValue`.  Numbers
    are IEEE-754 doubles; this client only ever handles integer-valued
    doubles, so `JsValue.num` carries the exact integer value of the double
    and `nearestDouble` models the rounding a decimal literal undergoes.
    `JsValue.bigint` stands for the values `JSON.stringify` throws on
    (BigInt, and by extension the circular structures an inductive type
    cannot express).
  * `emitV` models `JSON.stringify` (no spaces, object keys in insertion
    order, strings escaped as ECMA-404/ECMA-262 prescribe, large numbers in
    the shortest exponential form `Number.prototype.toString` produces).
    It is fuel-indexed so every definition stays executable; exhausting the
    fuel corresponds to the stack overflow a deeply nested value causes.
  * `parseVal` models `JSON.parse` on the domain this client uses: numbers
    must denote integer-valued doubles (the node protocol transmits amounts
    as strings and counts as small integers), `\uXXXX` escapes of surrogate
    code units are rejected since Lean chars are scalar values.
-/

/-- A JavaScript value as it can appear in an RPC parameter object. -/
inductive JsValue where
  | str (s : String)
  | num (i : Int)
  | bool (b : Bool)
  | null
  | arr (items : List JsValue)
  | obj (members : List (String × JsValue))
  | bigint (i : Int)

/-! ## IEEE-754 double rounding (round to nearest, ties to even)

A JS number literal denotes the double nearest to its mathematical value.
For a natural number `n`, `nearestDouble n` is the integer value of that
double: `n` itself below `2 ^ 53`, otherwise `n` rounded to a multiple of
the unit in the last place (overflow to infinity is irrelevant at the
magnitudes this client uses, so it is not modelled). -/

/-- Smallest `e` such that `n < 2 ^ (53 + e)`, found by linear search
(`fuel` bounds the search; 1100 covers the whole double range). -/
def ulpExp : Nat → Nat → Nat → Nat
  | 0, _, e => e
  | fuel + 1, n, e => if 2 ^ (53 + e) ≤ n then ulpExp fuel n (e + 1) else e

/-- The integer value of the double nearest to `n` (ties to even). -/
def nearestDouble (n : Nat) : Nat :=
  if n < 2 ^ 53 then n
  else
    let e := ulpExp 1100 n 0
    let u := 2 ^ e
    let q := n / u
    let r := n % u
    if 2 * r < u then q * u
    else if u < 2 * r then (q + 1) * u
    else if q % 2 = 0 then q * u else (q + 1) * u

/-- The integer value of the double nearest to the integer `i`. -/
def nearestDoubleInt (i : Int) : Int :=
  if i < 0 then -(nearestDouble i.natAbs : Int) else (nearestDouble i.natAbs : Int)

/-- The double a JS integer number literal evaluates to. -/
def jsNumberLiteral (n : Nat) : Int := (nearestDouble n : Int)

/-! ## Decimal digits -/

/-- Little-endian decimal digits of `n` (`fuel`-bounded recursion so that the
definition evaluates by kernel reduction; agrees with `Nat.digits 10`). -/
def digitsFuel : Nat → Nat → List Nat
  | 0, _ => []
  | fuel + 1, n => if n = 0 then [] else n % 10 :: digitsFuel fuel (n / 10)

/-- The character of the decimal digit `d`. -/
def digitChar10 (d : Nat) : Char := Char.ofNat (48 + d)

/-- Decimal digit characters of `n`, most significant first. -/
def natChars (n : Nat) : List Char :=
  if n = 0 then [digitChar10 0] else (digitsFuel n n).reverse.map digitChar10

/-- Boolean digit test on characters, via the code point. -/
def isDigitChar (c : Char) : Bool := 48 ≤ c.toNat && c.toNat ≤ 57

/-- Numeric value of a decimal digit run (most significant first). -/
def foldDigits (l : List Char) : Nat :=
  l.foldl (fun a c => a * 10 + (c.toNat - 48)) 0

/-! ## Shortest exponential representation of a large integer double

`Number.prototype.toString` (hence `JSON.stringify`) prints an integer
double at or above `10 ^ 21` as `d[.ddd]e+X` using the fewest significant
digits that still round to the same double. -/

/-- Strip factors of ten from `s` into the exponent `m`. -/
def stripTens : Nat → Nat → Nat → Nat × Nat
  | 0, s, m => (s, m)
  | fuel + 1, s, m =>
      if s % 10 = 0 ∧ s ≠ 0 then stripTens fuel (s / 10) (m + 1) else (s, m)

/-- Accept candidate significand `c` at decimal exponent `e` iff the decimal
`c * 10 ^ e` rounds to exactly the double `v`. -/
def tryCand (v c e : Nat) : Option (Nat × Nat) :=
  let p := stripTens c c e
  if nearestDouble (p.1 * 10 ^ p.2) = v then some p else none

/-- The two rounding candidates for `v` with `k` significant digits, closest
first, ties preferring the even significand. -/
def candidates (v base f : Nat) : List Nat :=
  let low := v - f * base
  let high := (f + 1) * base - v
  if low < high then [f, f + 1]
  else if high < low then [f + 1, f]
  else if f % 2 = 0 then [f, f + 1] else [f + 1, f]

/-- Try to represent the double `v` (with `d` decimal digits) with exactly
`k` significant digits. -/
def tryK (v d k : Nat) : Option (Nat × Nat) :=
  if k < 1 ∨ d < k then none
  else
    let base := 10 ^ (d - k)
    let f := v / base
    match (candidates v base f).filterMap (fun c => tryCand v c (d - k)) with
    | [] => none
    | p :: _ => some p

/-- Search for the fewest significant digits (17 always suffice). -/
def shortestRepAux : Nat → Nat → Nat → Option (Nat × Nat)
  | 0, _, _ => none
  | fuel + 1, v, k =>
      match tryK v (natChars v).length k with
      | some p => some p
      | none => shortestRepAux fuel v (k + 1)

/-- Shortest `(s, m)` with `s * 10 ^ m` rounding to the double `v`. -/
def shortestRep (v : Nat) : Option (Nat × Nat) := shortestRepAux 17 v 1

/-- Exponential rendering `d[.ddd]e+X` of the decimal `s * 10 ^ m`. -/
def expChars (s m : Nat) : List Char :=
  match natChars s with
  | [] => [digitChar10 0]
  | d :: ds =>
      d :: (if ds.isEmpty then [] else '.' :: ds) ++ 'e' :: '+' :: natChars (ds.length + m)

/-- Rendering of a nonnegative integer double, as JS prints it: plain decimal
below `10 ^ 21`, shortest exponential form at or above it. -/
def emitNatNum (v : Nat) : List Char :=
  if v < 10 ^ 21 then natChars v
  else
    match shortestRep v with
    | some p => expChars p.1 p.2
    | none => natChars v

/-- Rendering of an integer-valued double, as JS prints it. -/
def emitNum (i : Int) : List Char :=
  if i < 0 then '-' :: emitNatNum i.natAbs else emitNatNum i.natAbs

/-! ## String escaping (ECMA-262 QuoteJSONString) -/

/-- Lowercase hexadecimal digit character. -/
def hexChar (d : Nat) : Char :=
  if d < 10 then Char.ofNat (48 + d) else Char.ofNat (87 + d)

/-- Escape one character the way `JSON.stringify` does. -/
def escChar (c : Char) : List Char :=
  if c = '"' then ['\\', '"']
  else if c = '\\' then ['\\', '\\']
  else if c = Char.ofNat 8 then ['\\', 'b']
  else if c = Char.ofNat 9 then ['\\', 't']
  else if c = Char.ofNat 10 then ['\\', 'n']
  else if c = Char.ofNat 12 then ['\\', 'f']
  else if c = Char.ofNat 13 then ['\\', 'r']
  else if c.toNat < 32 then
    ['\\', 'u', '0', '0', hexChar (c.toNat / 16), hexChar (c.toNat % 16)]
  else [c]

/-- Escape a character list. -/
def escStr : List Char → List Char
  | [] => []
  | c :: t => escChar c ++ escStr t

/-- A JSON string literal: quote, escaped contents, quote. -/
def strChars (s : String) : List Char := '"' :: (escStr s.data ++ ['"'])

/-! ## The serializer: a model of JSON.stringify -/

/-- Comma-separated concatenation. -/
def commaSep : List (List Char) → List Char
  | [] => []
  | [x] => x
  | x :: xs => x ++ ',' :: commaSep xs

/-- Serialize a `JsValue` (fuel-indexed; `none` models the exceptions
`JSON.stringify` raises: a BigInt value, or stack overflow on a value
nested more deeply than the fuel). -/
def emitV : Nat → JsValue → Option (List Char)
  | 0, _ => none
  | fuel + 1, v =>
    match v with
    | .str s => some (strChars s)
    | .num i => some (emitNum i)
    | .bool b => some (if b then "true".data else "false".data)
    | .null => some ("null".data)
    | .bigint _ => none
    | .arr vs =>
        match vs.mapM (emitV fuel) with
        | some parts => some ('[' :: (commaSep parts ++ [']']))
        | none => none
    | .obj kvs =>
        match kvs.mapM (fun kv => (emitV fuel kv.2).map (fun e => strChars kv.1 ++ ':' :: e)) with
        | some parts => some ('{' :: (commaSep parts ++ ['}']))
        | none => none

/-- The recursion depth available to the serializer (models the JS engine
call-stack bound; any value this client actually builds is far shallower). -/
def stringifyFuel : Nat := 10000

/-- The model of `JSON.stringify`. -/
def jsonStringify (v : JsValue) : Option String :=
  (emitV stringifyFuel v).map (fun cs => String.mk cs)

/-! ## JS object-literal semantics

Defining a property that already exists keeps its position and overwrites
its value; a fresh key is appended.  This is both what the spread
`\x7b action, ...params \x7d` does and what `JSON.parse` does with duplicate
keys. -/

/-- Define property `k` with value `v` on the ordered member list `o`. -/
def objSet (o : List (String × JsValue)) (k : String) (v : JsValue) :
    List (String × JsValue) :=
  if o.any (fun kv => kv.1 = k) then
    o.map (fun kv => if kv.1 = k then (kv.1, v) else kv)
  else o ++ [(k, v)]

/-- Define every member of `p`, in order, on top of `base`. -/
def spreadInto (base p : List (String × JsValue)) : List (String × JsValue) :=
  p.foldl (fun o kv => objSet o kv.1 kv.2) base

/-- The object built by defining the members in order (JS duplicate-key
semantics: last value wins, first position is kept). -/
def jsObjOf (p : List (String × JsValue)) : List (String × JsValue) :=
  spreadInto [] p

/-! ## The parser: a model of JSON.parse -/

/-- JSON whitespace. -/
def isJsonWs (c : Char) : Bool :=
  c == ' ' || c == Char.ofNat 9 || c == Char.ofNat 10 || c == Char.ofNat 13

/-- Drop leading JSON whitespace. -/
def skipWs (cs : List Char) : List Char := cs.dropWhile isJsonWs

/-- Numeric value of a hex digit character. -/
def hexVal (c : Char) : Option Nat :=
  if 48 ≤ c.toNat ∧ c.toNat ≤ 57 then some (c.toNat - 48)
  else if 97 ≤ c.toNat ∧ c.toNat ≤ 102 then some (c.toNat - 87)
  else if 65 ≤ c.toNat ∧ c.toNat ≤ 70 then some (c.toNat - 55)
  else none

/-- Value of four hex digit characters. -/
def hex4 (a b c d : Char) : Option Nat :=
  match hexVal a, hexVal b, hexVal c, hexVal d with
  | some va, some vb, some vc, some vd => some (((va * 16 + vb) * 16 + vc) * 16 + vd)
  | _, _, _, _ => none

/-- The character a short escape denotes. -/
def unescapeChar (e : Char) : Option Char :=
  if e = '"' then some '"'
  else if e = '\\' then some '\\'
  else if e = '/' then some '/'
  else if e = 'b' then some (Char.ofNat 8)
  else if e = 't' then some (Char.ofNat 9)
  else if e = 'n' then some (Char.ofNat 10)
  else if e = 'f' then some (Char.ofNat 12)
  else if e = 'r' then some (Char.ofNat 13)
  else none

/-- Parse the body of a JSON string after its opening quote; surrogate
`\uXXXX` escapes are outside the model (Lean characters are scalars). -/
def parseStrBody : List Char → Option (List Char × List Char)
  | [] => none
  | c :: r =>
    if c = '"' then some ([], r)
    else if c = '\\' then
      match r with
      | [] => none
      | e :: r2 =>
        if e = 'u' then
          match r2 with
          | a :: b :: c2 :: d2 :: r3 =>
            (match hex4 a b c2 d2 with
             | none => none
             | some n =>
               if n < 55296 ∨ 57343 < n then
                 match parseStrBody r3 with
                 | some (s, r4) => some (Char.ofNat n :: s, r4)
                 | none => none
               else none)
          | _ => none
        else
          match unescapeChar e with
          | none => none
          | some ce =>
            match parseStrBody r2 with
            | some (s, r4) => some (ce :: s, r4)
            | none => none
    else if c.toNat < 32 then none
    else
      match parseStrBody r with
      | some (s, r4) => some (c :: s, r4)
      | none => none

/-- Take the longest leading run of digit characters. -/
def takeDigits : List Char → List Char × List Char
  | [] => ([], [])
  | c :: t =>
      if isDigitChar c then
        let p := takeDigits t
        (c :: p.1, p.2)
      else ([], c :: t)

/-- Combine sign, integer digits, fraction digits and exponent into the
double the decimal denotes; `none` when the value is not an integer (such
values are outside this model). -/
def mkNum (neg : Bool) (ids fds : List Char) (eneg : Bool) (e : Nat)
    (rest : List Char) : Option (Int × List Char) :=
  let M := foldDigits (ids ++ fds)
  let fl := fds.length
  let signed : Nat → Int := fun n => if neg then -(n : Int) else (n : Int)
  if eneg then
    if M % 10 ^ (e + fl) = 0 then some (signed (nearestDouble (M / 10 ^ (e + fl))), rest)
    else none
  else if fl ≤ e then some (signed (nearestDouble (M * 10 ^ (e - fl))), rest)
  else if M % 10 ^ (fl - e) = 0 then some (signed (nearestDouble (M / 10 ^ (fl - e))), rest)
  else none

/-- Parse the exponent part after the letter `e`. -/
def parseExp (neg : Bool) (ids fds : List Char) (r : List Char) :
    Option (Int × List Char) :=
  match r with
  | [] => none
  | c :: t =>
    let sp : Bool × List Char :=
      if c = '+' then (false, t) else if c = '-' then (true, t) else (false, c :: t)
    match sp.2 with
    | c2 :: _ =>
        if isDigitChar c2 then
          let p := takeDigits sp.2
          mkNum neg ids fds sp.1 (foldDigits p.1) p.2
        else none
    | [] => none

/-- Parse an optional exponent after the fraction digits. -/
def parseAfterFrac (neg : Bool) (ids fds : List Char) (cs : List Char) :
    Option (Int × List Char) :=
  match cs with
  | [] => mkNum neg ids fds false 0 []
  | c :: r =>
      if c = 'e' ∨ c = 'E' then parseExp neg ids fds r
      else mkNum neg ids fds false 0 (c :: r)

/-- Parse what follows the integer digit run: optional fraction, optional
exponent. -/
def parseNumTail (neg : Bool) (ids : List Char) (cs : List Char) :
    Option (Int × List Char) :=
  match cs with
  | [] => mkNum neg ids [] false 0 []
  | c :: r =>
      if c = '.' then
        match r with
        | [] => none
        | c2 :: _ =>
            if isDigitChar c2 then
              let p := takeDigits r
              parseAfterFrac neg ids p.1 p.2
            else none
      else if c = 'e' ∨ c = 'E' then parseExp neg ids [] r
      else mkNum neg ids [] false 0 (c :: r)

/-- Parse an unsigned JSON number body. -/
def parseUInt (neg : Bool) (cs : List Char) : Option (Int × List Char) :=
  match cs with
  | [] => none
  | c :: _ =>
      if isDigitChar c then
        let p := takeDigits cs
        if p.1.length > 1 ∧ p.1.head? = some '0' then none
        else parseNumTail neg p.1 p.2
      else none

/-- Parse a JSON number (grammar of RFC 8259, restricted to integer-valued
doubles). -/
def parseNumber (cs : List Char) : Option (Int × List Char) :=
  match cs with
  | [] => none
  | c :: t => if c = '-' then parseUInt true t else parseUInt false (c :: t)

mutual
/-- Parse one JSON value (fuel-indexed). -/
def parseVal : Nat → List Char → Option (JsValue × List Char)
  | 0, _ => none
  | pf + 1, cs =>
    match skipWs cs with
    | [] => none
    | c :: r =>
      if c = '"' then
        match parseStrBody r with
        | some p => some (JsValue.str (String.mk p.1), p.2)
        | none => none
      else if c = '[' then
        match skipWs r with
        | [] => none
        | c2 :: r2 =>
            if c2 = ']' then some (.arr [], r2)
            else
              match parseItems pf (c2 :: r2) with
              | some p => some (JsValue.arr p.1, p.2)
              | none => none
      else if c = '{' then
        match skipWs r with
        | [] => none
        | c2 :: r2 =>
            if c2 = '}' then some (.obj [], r2)
            else
              match parseMembers pf (c2 :: r2) with
              | some p => some (JsValue.obj (jsObjOf p.1), p.2)
              | none => none
      else if c = 't' then
        match r with
        | 'r' :: 'u' :: 'e' :: r2 => some (.bool true, r2)
        | _ => none
      else if c = 'f' then
        match r with
        | 'a' :: 'l' :: 's' :: 'e' :: r2 => some (.bool false, r2)
        | _ => none
      else if c = 'n' then
        match r with
        | 'u' :: 'l' :: 'l' :: r2 => some (.null, r2)
        | _ => none
      else
        match parseNumber (c :: r) with
        | some p => some (JsValue.num p.1, p.2)
        | none => none

/-- Parse one or more comma-separated array items up to `]`. -/
def parseItems : Nat → List Char → Option (List JsValue × List Char)
  | 0, _ => none
  | pf + 1, cs =>
    match parseVal pf cs with
    | none => none
    | some (v, r) =>
      match skipWs r with
      | [] => none
      | c :: r2 =>
          if c = ',' then
            match parseItems pf r2 with
            | some p => some (v :: p.1, p.2)
            | none => none
          else if c = ']' then some ([v], r2)
          else none

/-- Parse one or more comma-separated object members up to the brace that
closes the object. -/
def parseMembers : Nat → List Char → Option (List (String × JsValue) × List Char)
  | 0, _ => none
  | pf + 1, cs =>
    match skipWs cs with
    | [] => none
    | c0 :: r =>
      if c0 = '"' then
        match parseStrBody r with
        | none => none
        | some (k, r1) =>
          match skipWs r1 with
          | [] => none
          | c1 :: r2 =>
            if c1 = ':' then
              match parseVal pf r2 with
              | none => none
              | some (v, r3) =>
                match skipWs r3 with
                | [] => none
                | c2 :: r4 =>
                    if c2 = ',' then
                      match parseMembers pf r4 with
                      | some p => some ((String.mk k, v) :: p.1, p.2)
                      | none => none
                    else if c2 = '}' then some ([(String.mk k, v)], r4)
                    else none
            else none
      else none
end

/-- The model of `JSON.parse`: the whole input must be one JSON value
followed only by whitespace. -/
def parseJson (s : String) : Option JsValue :=
  match parseVal (s.data.length + 1) s.data with
  | some (v, r) => if skipWs r = [] then some v else none
  | none => none

/-- A remainder that cannot extend a JSON value: empty, or starting with a
separator or closer. -/
def isDelim : List Char → Bool
  | [] => true
  | c :: _ => c == ',' || c == '}' || c == ']'

/-- The JS-realizable values: numbers are doubles (integer-valued in this
model), object keys are distinct (a JS object cannot hold duplicates), and
there is no BigInt.  Every value a caller of this client can actually pass
satisfies this. -/
inductive Wf : JsValue → Prop where
  | str (s : String) : Wf (.str s)
  | num (i : Int) : nearestDoubleInt i = i → Wf (.num i)
  | bool (b : Bool) : Wf (.bool b)
  | null : Wf .null
  | arr (vs : List JsValue) : (∀ v ∈ vs, Wf v) → Wf (.arr vs)
  | obj (kvs : List (String × JsValue)) :
      (kvs.map Prod.fst).Nodup → (∀ kv ∈ kvs, Wf kv.2) → Wf (.obj kvs)

/-! ## The client

`RaiClient` and `_buildRPCReq`, from `lib/index.js` (both implementations
define them identically). -/

/-- The client state set up by the constructor. -/
structure RaiClient where
  nodeAddress : String
  deserializeJSON : Bool

/-- The request descriptor `_buildRPCReq` returns. -/
structure RPCReq where
  url : String
  body : String

/-- The errors a call can fail with. `statusError code` stands for
`new Error("Failed to fetch URL. Status code: " + code)`; `serializeError`
for the `Error` wrapping a `JSON.stringify` failure; `parseError` for the
exception `JSON.parse` throws; `networkError` for the request error
event. -/
inductive JsErr where
  | serializeError
  | statusError (code : Nat)
  | parseError
  | networkError

/-- The embedding of `_buildRPCReq(action, params)`:
`req.url = this.nodeAddress + "/"`, `req.body = JSON.stringify({action})`
when `params` is `undefined`, else
`JSON.stringify(\x7b action, ...params \x7d)`; a stringify failure is
rethrown and surfaces as an error. -/
def buildRPCReq (c : RaiClient) (action : String)
    (params : Option (List (String × JsValue))) : Except JsErr RPCReq :=
  let url := c.nodeAddress ++ "/"
  match params with
  | none =>
      match jsonStringify (.obj [("action", .str action)]) with
      | some body => .ok { url := url, body := body }
      | none => .error .serializeError
  | some p =>
      match jsonStringify (.obj (spreadInto [("action", .str action)] p)) with
      | some body => .ok { url := url, body := body }
      | none => .error .serializeError

/-! ## The transport (`_send`, http/https implementation)

The WHATWG `URL` fields the code reads, and the transport selection
`url.protocol === "https" ? https : http`.  Note `URL.protocol` includes
the trailing colon. -/

/-- The `URL` fields `_send` reads. -/
structure ParsedURL where
  protocol : String
  hostname : String
  port : String
  pathname : String

/-- WHATWG `new URL(s)` restricted to the shapes this client passes
(absolute http/https URLs without userinfo, query or fragment; an invalid
URL, which would throw, is out of scope). `protocol` keeps the trailing
colon, an IPv6 hostname keeps its brackets, and an empty path normalizes
to a single slash. -/
def parseURL (s : String) : ParsedURL :=
  let cs := s.data
  let scheme := cs.takeWhile (fun c => c ≠ ':')
  let rest := cs.drop (scheme.length + 1)
  let rest2 := if rest.take 2 = ['/', '/'] then rest.drop 2 else rest
  let auth := rest2.takeWhile (fun c => c ≠ '/')
  let path := rest2.drop auth.length
  let hp : List Char × List Char :=
    match auth with
    | '[' :: t =>
        let h := t.takeWhile (fun c => c ≠ ']')
        let after := t.drop (h.length + 1)
        ('[' :: (h ++ [']']),
         match after with
         | ':' :: p => p
         | _ => [])
    | _ =>
        let h := auth.takeWhile (fun c => c ≠ ':')
        (h,
         match auth.drop h.length with
         | ':' :: p => p
         | _ => [])
  { protocol := String.mk (scheme ++ [':'])
    hostname := String.mk hp.1
    port := String.mk hp.2
    pathname := String.mk (if path.isEmpty then ['/'] else path) }

/-- The two node transport modules. -/
inductive Lib where
  | http
  | https

/-- The transport selection of `_send`:
`const lib = url.protocol === "https" ? https : http`. -/
def libFor (u : ParsedURL) : Lib :=
  if u.protocol = "https" then Lib.https else Lib.http

/-- The `requestOptions` object `_send` builds (it sets no headers). -/
structure ReqOptions where
  hostname : String
  port : String
  method : String
  path : String
  headers : List (String × String)

/-- The options passed to `lib.request` in `_send`. -/
def mkRequestOptions (u : ParsedURL) : ReqOptions :=
  { hostname := u.hostname
    port := u.port
    method := "POST"
    path := u.pathname
    headers := [] }

/-- What a call resolves with. -/
inductive SendResult where
  | json (v : JsValue)
  | raw (s : String)

/-- One settlement of the promise. -/
inductive Settle where
  | resolve (r : SendResult)
  | reject (e : JsErr)

/-- The observable events of one `_send` call, in program order.  `settle`
events record every `resolve`/`reject` call; a promise keeps only the
first. -/
inductive Event where
  | connect (lib : Lib) (opts : ReqOptions)
  | post (url : String) (body : String)
  | write (body : String)
  | parseAttempt (data : String)
  | settle (s : Settle)

/-- The HTTP response, as the `http`/`https` callback sees it: a status
code and the body chunks in arrival order. -/
structure Response where
  statusCode : Nat
  chunks : List String

/-- The embedding of the `http`/`https` `_send(method, params)` on a run
where a response arrives: build the request (a build failure rejects and
returns before any network step); parse the URL, select the transport,
open the request with the options and write the body; reject on a status
outside 200..299 (without returning, so the stream handlers still run);
join the chunks on end and resolve raw, or attempt `JSON.parse` and
resolve the value or reject the exception. -/
def sendEvents (c : RaiClient) (action : String)
    (params : Option (List (String × JsValue))) (resp : Response) : List Event :=
  match buildRPCReq c action params with
  | .error e => [.settle (.reject e)]
  | .ok req =>
    let u := parseURL req.url
    let statusEvents : List Event :=
      if resp.statusCode < 200 ∨ 299 < resp.statusCode then
        [.settle (.reject (.statusError resp.statusCode))]
      else []
    let data := String.join resp.chunks
    let endEvents : List Event :=
      if c.deserializeJSON = false then [.settle (.resolve (.raw data))]
      else
        .parseAttempt data ::
          (match parseJson data with
           | some v => [.settle (.resolve (.json v))]
           | none => [.settle (.reject .parseError)])
    .connect (libFor u) (mkRequestOptions u) :: .write req.body ::
      (statusEvents ++ endEvents)

/-- The settle calls of a trace, in order. -/
def settlesOf (evs : List Event) : List Settle :=
  evs.filterMap (fun e =>
    match e with
    | .settle s => some s
    | _ => none)

/-- A promise settles once: its outcome is the first settle call. -/
def outcomeOf (evs : List Event) : Option Settle := (settlesOf evs).head?

/-- The outcome of one `_send` call of the `http`/`https` implementation. -/
def sendOutcome (c : RaiClient) (action : String)
    (params : Option (List (String × JsValue))) (resp : Response) : Option Settle :=
  outcomeOf (sendEvents c action params resp)

/-- The connections a trace opens. -/
def connectsOf (evs : List Event) : List (Lib × ReqOptions) :=
  evs.filterMap (fun e =>
    match e with
    | .connect l o => some (l, o)
    | _ => none)

/-- The request bodies a trace writes (on either implementation). -/
def writesOf (evs : List Event) : List String :=
  evs.filterMap (fun e =>
    match e with
    | .write b => some b
    | .post _ b => some b
    | _ => none)

/-- Whether a trace ever attempts a JSON parse. -/
def attemptsParse (evs : List Event) : Prop := ∃ d, Event.parseAttempt d ∈ evs

/-- Whether the request options carry a header indicating JSON content. -/
def indicatesJsonContent (o : ReqOptions) : Prop :=
  ∃ kv ∈ o.headers, kv.1.toLower = "content-type" ∧ kv.2 = "application/json"

/-! ## The transport (`_send`, request-library implementation)

The older implementation posts `req` through the `request` package and
handles the callback `(err, req, data)` in a plain (non-arrow) function:
its `this` is not the client instance, so `this.deserializeJSON` is
`undefined`. -/

/-- The value of `this.deserializeJSON` inside the plain callback: the
property is absent on the callback receiver, so the lookup yields
`undefined`. -/
def callbackThisDeserializeJSON : Option Bool := none

/-- JS truthiness of a possibly-undefined boolean. -/
def jsTruthy : Option Bool → Bool
  | none => false
  | some b => b

/-- The embedding of the request-library `_send(method, params)` on a run
where the callback fires with error `err` and body text `data` (this
implementation never looks at the status code). -/
def sendEventsRequestLib (c : RaiClient) (action : String)
    (params : Option (List (String × JsValue))) (err : Option JsErr)
    (data : String) : List Event :=
  match buildRPCReq c action params with
  | .error e => [.settle (.reject e)]
  | .ok req =>
    .post req.url req.body ::
      (match err with
       | some e => [.settle (.reject e)]
       | none =>
         if jsTruthy callbackThisDeserializeJSON = false then
           [.settle (.resolve (.raw data))]
         else
           .parseAttempt data ::
             (match parseJson data with
              | some v => [.settle (.resolve (.json v))]
              | none => [.settle (.reject .parseError)]))

/-- The outcome of one `_send` call of the request-library implementation. -/
def sendOutcomeRequestLib (c : RaiClient) (action : String)
    (params : Option (List (String × JsValue))) (err : Option JsErr)
    (data : String) : Option Settle :=
  outcomeOf (sendEventsRequestLib c action params err data)

/-! ## Public method table (the entries the claims are about)

Each method is a one-line adapter calling `this._send(action, params)`.
Omitted optional arguments are passed as `none`; `Option.getD` applies the
declared JS default value. -/

/-- The `(method, params)` pair a public method passes to `_send`. -/
structure RpcCall where
  action : String
  params : Option (List (String × JsValue))

/-- The adapter `account_balance(account)`. -/
def account_balance (account : JsValue) : RpcCall :=
  ⟨"account_balance", some [("account", account)]⟩

/-- The adapter `block_count()`. -/
def block_count : RpcCall := ⟨"block_count", none⟩

/-- The adapter `representatives(count = 1, sorting = false)`: the source
body is `return this._send("representatives")`, so neither parameter
reaches the request. -/
def representatives (count : Option JsValue) (sorting : Option JsValue) : RpcCall :=
  let count := count.getD (.num 1)
  let sorting := sorting.getD (.bool false)
  ⟨"representatives", none⟩

/-- The adapter `accounts_create(accounts, count = 1, work = false)`: the
source forwards only `accounts` and `count`, not `work`. -/
def accounts_create (accounts : JsValue) (count : Option JsValue)
    (work : Option JsValue) : RpcCall :=
  let count := count.getD (.num 1)
  let work := work.getD (.bool false)
  ⟨"accounts_create", some [("accounts", accounts), ("count", count)]⟩

/-- The adapter
`accounts_pending(accounts, count = 1, threshold = 1000000000000000000000000, source = false)`;
the threshold default literal evaluates to the nearest double. -/
def accounts_pending (accounts : JsValue) (count : Option JsValue)
    (threshold : Option JsValue) (source : Option JsValue) : RpcCall :=
  let count := count.getD (.num 1)
  let threshold := threshold.getD (.num (jsNumberLiteral 1000000000000000000000000))
  let source := source.getD (.bool false)
  ⟨"accounts_pending", some [("accounts", accounts), ("count", count),
    ("threshold", threshold), ("source", source)]⟩

/-! # Theorems

## Decimal digits -/

theorem digitsFuel_eq : ∀ (fuel n : Nat), n ≤ fuel → digitsFuel fuel n = Nat.digits 10 n
  | 0, n, h => by
      have hn : n = 0 := by omega
      subst hn
      simp [digitsFuel]
  | fuel + 1, n, h => by
      by_cases h0 : n = 0
      · subst h0; simp [digitsFuel]
      · rw [digitsFuel, if_neg h0,
            Nat.digits_def' (by norm_num : (1 : Nat) < 10) (Nat.pos_of_ne_zero h0),
            digitsFuel_eq fuel (n / 10) (by
              have := Nat.div_lt_self (Nat.pos_of_ne_zero h0) (by norm_num : (1 : Nat) < 10)
              omega)]

theorem natChars_def (n : Nat) :
    natChars n = if n = 0 then [digitChar10 0]
                 else (Nat.digits 10 n).reverse.map digitChar10 := by
  unfold natChars
  by_cases h0 : n = 0
  · simp [h0]
  · rw [if_neg h0, if_neg h0, digitsFuel_eq n n le_rfl]

theorem digitChar10_toNat {d : Nat} (h : d < 10) : (digitChar10 d).toNat = 48 + d := by
  interval_cases d <;> decide

theorem isDigitChar_digitChar10 {d : Nat} (h : d < 10) :
    isDigitChar (digitChar10 d) = true := by
  interval_cases d <;> decide

theorem mem_natChars {n : Nat} : ∀ c ∈ natChars n, ∃ d, d < 10 ∧ c = digitChar10 d := by
  rw [natChars_def]
  split
  · intro c hc
    simp only [List.mem_singleton] at hc
    exact ⟨0, by omega, hc⟩
  · intro c hc
    simp only [List.mem_map, List.mem_reverse] at hc
    obtain ⟨d, hd, rfl⟩ := hc
    exact ⟨d, Nat.digits_lt_base (by norm_num) hd, rfl⟩

theorem natChars_all_digits (n : Nat) : ∀ c ∈ natChars n, isDigitChar c = true := by
  intro c hc
  obtain ⟨d, hd, rfl⟩ := mem_natChars c hc
  exact isDigitChar_digitChar10 hd

theorem natChars_ne_nil (n : Nat) : natChars n ≠ [] := by
  rw [natChars_def]
  split
  · simp
  · rename_i h0
    simp only [ne_eq, List.map_eq_nil_iff, List.reverse_eq_nil_iff]
    exact Nat.digits_ne_nil_iff_ne_zero.mpr h0

theorem natChars_head_ne_zeroChar {n : Nat} (hn : n ≠ 0) {c : Char} {t : List Char}
    (h : natChars n = c :: t) : c ≠ '0' := by
  have hne : Nat.digits 10 n ≠ [] := Nat.digits_ne_nil_iff_ne_zero.mpr hn
  have hmap : (Nat.digits 10 n).reverse.map digitChar10 = c :: t := by
    rw [← h, natChars_def, if_neg hn]
  have hh : ((Nat.digits 10 n).reverse.map digitChar10).head? = some c := by
    rw [hmap]; rfl
  rw [List.head?_map, List.head?_reverse, List.getLast?_eq_getLast _ hne] at hh
  have hc : c = digitChar10 ((Nat.digits 10 n).getLast hne) := by
    rw [show Option.map digitChar10 (some ((Nat.digits 10 n).getLast hne))
          = some (digitChar10 ((Nat.digits 10 n).getLast hne)) from rfl] at hh
    exact (Option.some.inj hh).symm
  have hdl : (Nat.digits 10 n).getLast hne ≠ 0 := Nat.getLast_digit_ne_zero 10 hn
  have hdlt : (Nat.digits 10 n).getLast hne < 10 :=
    Nat.digits_lt_base (by norm_num) (List.getLast_mem hne)
  intro hc0
  rw [hc0] at hc
  have : ('0').toNat = (digitChar10 ((Nat.digits 10 n).getLast hne)).toNat := by rw [← hc]
  rw [digitChar10_toNat hdlt] at this
  have h48 : ('0').toNat = 48 := by decide
  omega

theorem foldl_digits_rev (l : List Nat) (hl : ∀ d ∈ l, d < 10) :
    ∀ a : Nat,
      List.foldl (fun a c => a * 10 + (c.toNat - 48)) a (l.reverse.map digitChar10)
        = a * 10 ^ l.length + Nat.ofDigits 10 l := by
  induction l with
  | nil => intro a; simp [Nat.ofDigits]
  | cons d t ih =>
      intro a
      have hd : d < 10 := hl d (List.mem_cons_self d t)
      have ht : ∀ x ∈ t, x < 10 := fun x hx => hl x (List.mem_cons_of_mem d hx)
      rw [List.reverse_cons, List.map_append, List.foldl_append, ih ht a]
      simp only [List.map_cons, List.map_nil, List.foldl_cons, List.foldl_nil,
        digitChar10_toNat hd, Nat.ofDigits_cons, List.length_cons]
      ring_nf
      omega

theorem foldDigits_natChars (n : Nat) : foldDigits (natChars n) = n := by
  rw [natChars_def]
  split
  · rename_i h0; subst h0; decide
  · unfold foldDigits
    rw [foldl_digits_rev _ (fun d hd => Nat.digits_lt_base (by norm_num) hd) 0,
        Nat.ofDigits_digits]
    omega

theorem natChars_length_one {v : Nat} (h : v < 10) : (natChars v).length = 1 := by
  rw [natChars_def]
  by_cases h0 : v = 0
  · simp [h0]
  · rw [if_neg h0]
    have : Nat.digits 10 v = [v] := by
      rw [Nat.digits_def' (by norm_num : (1 : Nat) < 10) (Nat.pos_of_ne_zero h0)]
      have hv10 : v % 10 = v := Nat.mod_eq_of_lt h
      have hv0 : v / 10 = 0 := Nat.div_eq_of_lt h
      rw [hv10, hv0]
      simp
    rw [this]
    simp

/-! ## Digit runs -/

theorem takeDigits_not {c : Char} {t : List Char} (h : isDigitChar c = false) :
    takeDigits (c :: t) = ([], c :: t) := by
  simp [takeDigits, h]

theorem takeDigits_cons_digit {c : Char} {t : List Char} (h : isDigitChar c = true) :
    takeDigits (c :: t) = (c :: (takeDigits t).1, (takeDigits t).2) := by
  simp [takeDigits, h]

theorem takeDigits_delim {cs : List Char} (h : isDelim cs = true) :
    takeDigits cs = ([], cs) := by
  match cs with
  | [] => rfl
  | c :: t =>
      simp only [isDelim, Bool.or_eq_true, beq_iff_eq] at h
      rcases h with (h | h) | h <;> subst h <;> exact takeDigits_not (by decide)

theorem takeDigits_run {ds rest : List Char} (hr : takeDigits rest = ([], rest))
    (hds : ∀ c ∈ ds, isDigitChar c = true) :
    takeDigits (ds ++ rest) = (ds, rest) := by
  induction ds with
  | nil => simpa using hr
  | cons c t ih =>
      have hc : isDigitChar c = true := hds c (List.mem_cons_self c t)
      simp [takeDigits, hc, ih (fun x hx => hds x (List.mem_cons_of_mem c hx))]

/-! ## Character class facts -/

theorem isDigitChar_bounds {c : Char} (h : isDigitChar c = true) :
    48 ≤ c.toNat ∧ c.toNat ≤ 57 := by
  simp only [isDigitChar, Bool.and_eq_true, decide_eq_true_eq] at h
  exact h

theorem isDigitChar_ne {c : Char} (h : isDigitChar c = true) :
    c ≠ '-' ∧ c ≠ '+' ∧ c ≠ '.' ∧ c ≠ 'e' ∧ c ≠ 'E' ∧ c ≠ '"' ∧ c ≠ '[' ∧
    c ≠ '{' ∧ c ≠ 't' ∧ c ≠ 'f' ∧ c ≠ 'n' ∧ c ≠ ']' ∧ c ≠ '}' ∧ c ≠ ',' ∧
    c ≠ ':' := by
  refine ⟨?_, ?_, ?_, ?_, ?_, ?_, ?_, ?_, ?_, ?_, ?_, ?_, ?_, ?_, ?_⟩ <;>
    (rintro rfl; exact absurd h (by decide))

theorem isDigitChar_not_ws {c : Char} (h : isDigitChar c = true) :
    isJsonWs c = false := by
  have hb := isDigitChar_bounds h
  simp only [isJsonWs, Bool.or_eq_false_iff, beq_eq_false_iff_ne]
  refine ⟨⟨⟨?_, ?_⟩, ?_⟩, ?_⟩ <;> (rintro rfl; revert h; decide)

/-! ## Soundness of the shortest-representation search -/

theorem tryCand_sound {v c e : Nat} {p : Nat × Nat} (h : tryCand v c e = some p) :
    nearestDouble (p.1 * 10 ^ p.2) = v := by
  by_cases hcond : nearestDouble ((stripTens c c e).1 * 10 ^ (stripTens c c e).2) = v
  · have hp : stripTens c c e = p := by
      simp only [tryCand, hcond, if_true] at h
      exact Option.some.inj h
    rw [← hp]
    exact hcond
  · simp [tryCand, hcond] at h

theorem tryK_sound {v d k : Nat} {p : Nat × Nat} (h : tryK v d k = some p) :
    nearestDouble (p.1 * 10 ^ p.2) = v := by
  by_cases hk : k < 1 ∨ d < k
  · unfold tryK at h
    rw [if_pos hk] at h
    exact absurd h (by simp)
  · rcases hlist : (candidates v (10 ^ (d - k)) (v / 10 ^ (d - k))).filterMap
        (fun c => tryCand v c (d - k)) with _ | ⟨q, tl⟩
    · simp [tryK, hk, hlist] at h
    · have hp : q = p := by
        simp only [tryK, hk, if_false, hlist] at h
        exact Option.some.inj h
      subst hp
      have hq : q ∈ (candidates v (10 ^ (d - k)) (v / 10 ^ (d - k))).filterMap
          (fun c => tryCand v c (d - k)) := by
        rw [hlist]; exact List.mem_cons_self q tl
      rw [List.mem_filterMap] at hq
      obtain ⟨c, _, hc⟩ := hq
      exact tryCand_sound hc

theorem shortestRepAux_sound : ∀ {fuel v k : Nat} {p : Nat × Nat},
    shortestRepAux fuel v k = some p → nearestDouble (p.1 * 10 ^ p.2) = v := by
  intro fuel
  induction fuel with
  | zero => intro v k p h; exact absurd h (by simp [shortestRepAux])
  | succ f ih =>
      intro v k p h
      unfold shortestRepAux at h
      split at h
      · rename_i q hq
        cases h
        exact tryK_sound hq
      · exact ih h

theorem shortestRep_sound {v : Nat} {p : Nat × Nat} (h : shortestRep v = some p) :
    nearestDouble (p.1 * 10 ^ p.2) = v :=
  shortestRepAux_sound h

/-! ## Number round-trip -/

theorem mkNum_plain (neg : Bool) (ids : List Char) (rest : List Char) :
    mkNum neg ids [] false 0 rest
      = some ((if neg then -(nearestDouble (foldDigits ids) : Int)
               else (nearestDouble (foldDigits ids) : Int)), rest) := by
  unfold mkNum
  simp

theorem mkNum_exp (neg : Bool) (ids fds : List Char) (E : Nat) (rest : List Char)
    (h : fds.length ≤ E) :
    mkNum neg ids fds false E rest
      = some ((if neg then -(nearestDouble (foldDigits (ids ++ fds) * 10 ^ (E - fds.length)) : Int)
               else (nearestDouble (foldDigits (ids ++ fds) * 10 ^ (E - fds.length)) : Int)), rest) := by
  unfold mkNum
  simp [h]

theorem parseExp_emit (neg : Bool) (ids fds : List Char) (E : Nat)
    {rest : List Char} (hrest : isDelim rest = true) :
    parseExp neg ids fds ('+' :: (natChars E ++ rest))
      = mkNum neg ids fds false E rest := by
  obtain ⟨ec, et, hE⟩ : ∃ ec et, natChars E = ec :: et := by
    match hx : natChars E with
    | [] => exact absurd hx (natChars_ne_nil E)
    | ec :: et => exact ⟨ec, et, rfl⟩
  have hec : isDigitChar ec = true :=
    natChars_all_digits E ec (by rw [hE]; exact List.mem_cons_self ec et)
  have htake : takeDigits (ec :: (et ++ rest)) = (ec :: et, rest) := by
    have hx := takeDigits_run (takeDigits_delim hrest) (natChars_all_digits E)
    rwa [hE, List.cons_append] at hx
  have hfold : foldDigits (ec :: et) = E := by
    have hx := foldDigits_natChars E
    rwa [hE] at hx
  rw [hE, List.cons_append]
  simp only [parseExp, htake, hec, hfold, reduceIte]

theorem parseAfterFrac_exp (neg : Bool) (ids fds : List Char) (E : Nat)
    {rest : List Char} (hrest : isDelim rest = true) :
    parseAfterFrac neg ids fds ('e' :: ('+' :: (natChars E ++ rest)))
      = mkNum neg ids fds false E rest := by
  simp only [parseAfterFrac, reduceIte,
    show ('e' = 'e' ∨ 'e' = 'E') = True from by simp]
  exact parseExp_emit neg ids fds E hrest

theorem parseNumTail_plain (neg : Bool) (ids : List Char) {rest : List Char}
    (h : isDelim rest = true) :
    parseNumTail neg ids rest = mkNum neg ids [] false 0 rest := by
  match rest with
  | [] => rfl
  | c :: t =>
      simp only [isDelim, Bool.or_eq_true, beq_iff_eq] at h
      rcases h with (h | h) | h <;> subst h <;> simp [parseNumTail]

theorem parseNumTail_exp (neg : Bool) (ids : List Char) (E : Nat)
    {rest : List Char} (hrest : isDelim rest = true) :
    parseNumTail neg ids ('e' :: ('+' :: (natChars E ++ rest)))
      = mkNum neg ids [] false E rest := by
  simp only [parseNumTail, reduceIte,
    show ('e' = 'e' ∨ 'e' = 'E') = True from by simp]
  exact parseExp_emit neg ids [] E hrest

theorem parseNumTail_frac (neg : Bool) (ids : List Char) {ds : List Char}
    (hds : ∀ c ∈ ds, isDigitChar c = true) {d2 : Char} {dt : List Char}
    (hshape : ds = d2 :: dt) (E : Nat) {rest : List Char}
    (hrest : isDelim rest = true) :
    parseNumTail neg ids ('.' :: (ds ++ 'e' :: '+' :: (natChars E ++ rest)))
      = mkNum neg ids ds false E rest := by
  subst hshape
  have hd2 : isDigitChar d2 = true := hds d2 (List.mem_cons_self d2 dt)
  have htake : takeDigits ((d2 :: dt) ++ 'e' :: '+' :: (natChars E ++ rest))
      = (d2 :: dt, 'e' :: '+' :: (natChars E ++ rest)) :=
    takeDigits_run (takeDigits_not (by decide)) hds
  rw [List.cons_append] at htake
  simp only [parseNumTail, List.cons_append, reduceIte, hd2, htake]
  exact parseAfterFrac_exp neg ids (d2 :: dt) E hrest

theorem parseUInt_natChars (neg : Bool) {v : Nat} (hv : nearestDouble v = v)
    {rest : List Char} (hrest : isDelim rest = true) :
    parseUInt neg (natChars v ++ rest)
      = some ((if neg then -(v : Int) else (v : Int)), rest) := by
  obtain ⟨c, t, hnc⟩ : ∃ c t, natChars v = c :: t := by
    match hx : natChars v with
    | [] => exact absurd hx (natChars_ne_nil v)
    | c :: t => exact ⟨c, t, rfl⟩
  have hc : isDigitChar c = true :=
    natChars_all_digits v c (by rw [hnc]; exact List.mem_cons_self c t)
  have htake : takeDigits (c :: (t ++ rest)) = (c :: t, rest) := by
    have hx := takeDigits_run (takeDigits_delim hrest) (natChars_all_digits v)
    rwa [hnc, List.cons_append] at hx
  have hlead : ¬((c :: t).length > 1 ∧ (c :: t).head? = some '0') := by
    by_cases hv10 : v < 10
    · have hlen := natChars_length_one hv10
      rw [hnc] at hlen
      rintro ⟨h1, _⟩
      omega
    · have hvne : v ≠ 0 := by omega
      have hc0 : c ≠ '0' := natChars_head_ne_zeroChar hvne hnc
      rintro ⟨_, h2⟩
      simp only [List.head?_cons, Option.some.injEq] at h2
      exact hc0 h2
  rw [hnc, List.cons_append]
  simp only [parseUInt, hc, reduceIte, htake, if_neg hlead]
  rw [show c :: t = natChars v from hnc.symm] at htake ⊢
  rw [parseNumTail_plain neg (natChars v) hrest, mkNum_plain, foldDigits_natChars, hv]

theorem parseUInt_expChars (neg : Bool) {v s m : Nat}
    (hsr : shortestRep v = some (s, m)) {rest : List Char}
    (hrest : isDelim rest = true) :
    parseUInt neg (expChars s m ++ rest)
      = some ((if neg then -(v : Int) else (v : Int)), rest) := by
  have hv : nearestDouble (s * 10 ^ m) = v := by
    have hx := shortestRep_sound hsr
    simpa using hx
  obtain ⟨d, ds, hnc⟩ : ∃ d ds, natChars s = d :: ds := by
    match hx : natChars s with
    | [] => exact absurd hx (natChars_ne_nil s)
    | d :: ds => exact ⟨d, ds, rfl⟩
  have hd : isDigitChar d = true :=
    natChars_all_digits s d (by rw [hnc]; exact List.mem_cons_self d ds)
  have hfold : foldDigits (d :: ds) = s := by
    have hx := foldDigits_natChars s
    rwa [hnc] at hx
  match ds, hnc with
  | [], hnc =>
      have hexp : expChars s m ++ rest = d :: ('e' :: '+' :: (natChars m ++ rest)) := by
        simp [expChars, hnc]
      rw [hexp]
      have htake : takeDigits (d :: ('e' :: '+' :: (natChars m ++ rest)))
          = ([d], 'e' :: '+' :: (natChars m ++ rest)) := by
        rw [takeDigits_cons_digit hd,
          takeDigits_not (show isDigitChar 'e' = false from by decide)]
      simp only [parseUInt, hd, reduceIte, htake,
        if_neg (show ¬(([d] : List Char).length > 1 ∧ ([d] : List Char).head? = some '0') from by
          rintro ⟨h1, _⟩; simp at h1)]
      rw [show ('e' :: '+' :: (natChars m ++ rest)) = 'e' :: ('+' :: (natChars m ++ rest)) from rfl,
        parseNumTail_exp neg [d] m hrest, mkNum_exp neg [d] [] m rest (by simp)]
      simp only [List.append_nil, List.length_nil, Nat.sub_zero]
      rw [show foldDigits [d] = s from hfold, hv]
  | d2 :: dt, hnc =>
      have hds : ∀ c ∈ d2 :: dt, isDigitChar c = true := by
        intro c hc
        exact natChars_all_digits s c (by rw [hnc]; exact List.mem_cons_of_mem d hc)
      have hexp : expChars s m ++ rest
          = d :: ('.' :: ((d2 :: dt) ++ 'e' :: '+' :: (natChars ((d2 :: dt).length + m) ++ rest))) := by
        simp [expChars, hnc]
      rw [hexp]
      have htake : takeDigits (d :: ('.' :: ((d2 :: dt) ++ 'e' :: '+' :: (natChars ((d2 :: dt).length + m) ++ rest))))
          = ([d], '.' :: ((d2 :: dt) ++ 'e' :: '+' :: (natChars ((d2 :: dt).length + m) ++ rest))) := by
        rw [takeDigits_cons_digit hd,
          takeDigits_not (show isDigitChar '.' = false from by decide)]
      simp only [parseUInt, hd, reduceIte, htake,
        if_neg (show ¬(([d] : List Char).length > 1 ∧ ([d] : List Char).head? = some '0') from by
          rintro ⟨h1, _⟩; simp at h1)]
      rw [parseNumTail_frac neg [d] hds rfl ((d2 :: dt).length + m) hrest,
        mkNum_exp neg [d] (d2 :: dt) ((d2 :: dt).length + m) rest (by omega)]
      have hsub : (d2 :: dt).length + m - (d2 :: dt).length = m := by omega
      rw [hsub, show foldDigits ([d] ++ d2 :: dt) = s from hfold, hv]

theorem parseUInt_emitNatNum (neg : Bool) {v : Nat} (hv : nearestDouble v = v)
    {rest : List Char} (hrest : isDelim rest = true) :
    parseUInt neg (emitNatNum v ++ rest)
      = some ((if neg then -(v : Int) else (v : Int)), rest) := by
  unfold emitNatNum
  by_cases hsmall : v < 10 ^ 21
  · rw [if_pos hsmall]
    exact parseUInt_natChars neg hv hrest
  · rw [if_neg hsmall]
    match hsr : shortestRep v with
    | some p =>
        obtain ⟨s, m⟩ := p
        exact parseUInt_expChars neg hsr hrest
    | none => exact parseUInt_natChars neg hv hrest

theorem emitNatNum_head (v : Nat) :
    ∃ c t, emitNatNum v = c :: t ∧ isDigitChar c = true := by
  have hnat : ∀ w : Nat, ∃ c t, natChars w = c :: t ∧ isDigitChar c = true := by
    intro w
    match hx : natChars w with
    | [] => exact absurd hx (natChars_ne_nil w)
    | c :: t =>
        exact ⟨c, t, rfl, natChars_all_digits w c (by rw [hx]; exact List.mem_cons_self c t)⟩
  unfold emitNatNum
  by_cases hsmall : v < 10 ^ 21
  · rw [if_pos hsmall]; exact hnat v
  · rw [if_neg hsmall]
    rcases hsr : shortestRep v with _ | p
    · exact hnat v
    · show ∃ c t, expChars p.1 p.2 = c :: t ∧ isDigitChar c = true
      unfold expChars
      rcases hx : natChars p.1 with _ | ⟨d, ds⟩
      · exact ⟨digitChar10 0, [], rfl, by decide⟩
      · refine ⟨d, _, rfl, ?_⟩
        exact natChars_all_digits p.1 d (by rw [hx]; exact List.mem_cons_self d ds)

theorem parseNumber_emitNum {i : Int} (hi : nearestDoubleInt i = i)
    {rest : List Char} (hrest : isDelim rest = true) :
    parseNumber (emitNum i ++ rest) = some (i, rest) := by
  by_cases hneg : i < 0
  · have hva : nearestDouble i.natAbs = i.natAbs := by
      unfold nearestDoubleInt at hi
      rw [if_pos hneg] at hi
      omega
    rw [show emitNum i = '-' :: emitNatNum i.natAbs from by rw [emitNum, if_pos hneg],
      List.cons_append]
    simp only [parseNumber, reduceIte]
    rw [parseUInt_emitNatNum true hva hrest]
    have : -(i.natAbs : Int) = i := by omega
    rw [if_pos rfl, this]
  · have hva : nearestDouble i.natAbs = i.natAbs := by
      unfold nearestDoubleInt at hi
      rw [if_neg hneg] at hi
      omega
    obtain ⟨c, t, hsh, hc⟩ := emitNatNum_head i.natAbs
    have hcm : c ≠ '-' := (isDigitChar_ne hc).1
    rw [show emitNum i = emitNatNum i.natAbs from by rw [emitNum, if_neg hneg], hsh,
      List.cons_append]
    simp only [parseNumber, if_neg hcm]
    rw [← List.cons_append, ← hsh, parseUInt_emitNatNum false hva hrest]
    have hcast : (i.natAbs : Int) = i := by omega
    rw [if_neg (show ¬(false = true) from by simp), hcast]

/-! ## String round-trip -/

theorem hexVal_hexChar {d : Nat} (h : d < 16) : hexVal (hexChar d) = some d := by
  interval_cases d <;> decide

theorem parseStrBody_escStr (s : List Char) (rest : List Char) :
    parseStrBody (escStr s ++ '"' :: rest) = some (s, rest) := by
  induction s with
  | nil =>
      show parseStrBody ('"' :: rest) = some ([], rest)
      rw [parseStrBody.eq_def]
      simp
  | cons c t ih =>
      rw [show escStr (c :: t) = escChar c ++ escStr t from rfl, List.append_assoc]
      unfold escChar
      by_cases h1 : c = '"'
      · subst h1
        rw [if_pos rfl, List.cons_append, List.cons_append, List.nil_append,
          parseStrBody.eq_def]
        simp [unescapeChar, ih]
      · rw [if_neg h1]
        by_cases h2 : c = '\\'
        · subst h2
          rw [if_pos rfl, List.cons_append, List.cons_append, List.nil_append,
            parseStrBody.eq_def]
          simp [unescapeChar, ih]
        · rw [if_neg h2]
          by_cases h3 : c = Char.ofNat 8
          · subst h3
            rw [if_pos rfl, List.cons_append, List.cons_append, List.nil_append,
              parseStrBody.eq_def]
            simp [unescapeChar, ih]
          · rw [if_neg h3]
            by_cases h4 : c = Char.ofNat 9
            · subst h4
              rw [if_pos rfl, List.cons_append, List.cons_append, List.nil_append,
                parseStrBody.eq_def]
              simp [unescapeChar, ih]
            · rw [if_neg h4]
              by_cases h5 : c = Char.ofNat 10
              · subst h5
                rw [if_pos rfl, List.cons_append, List.cons_append, List.nil_append,
                  parseStrBody.eq_def]
                simp [unescapeChar, ih]
              · rw [if_neg h5]
                by_cases h6 : c = Char.ofNat 12
                · subst h6
                  rw [if_pos rfl, List.cons_append, List.cons_append, List.nil_append,
                    parseStrBody.eq_def]
                  simp [unescapeChar, ih]
                · rw [if_neg h6]
                  by_cases h7 : c = Char.ofNat 13
                  · subst h7
                    rw [if_pos rfl, List.cons_append, List.cons_append, List.nil_append,
                      parseStrBody.eq_def]
                    simp [unescapeChar, ih]
                  · rw [if_neg h7]
                    by_cases h8 : c.toNat < 32
                    · rw [if_pos h8]
                      have hhi : hexVal (hexChar (c.toNat / 16)) = some (c.toNat / 16) :=
                        hexVal_hexChar (by omega)
                      have hlo : hexVal (hexChar (c.toNat % 16)) = some (c.toNat % 16) :=
                        hexVal_hexChar (by omega)
                      have harith : ((0 * 16 + 0) * 16 + c.toNat / 16) * 16 + c.toNat % 16
                          = c.toNat := by omega
                      rw [List.cons_append, List.cons_append, List.cons_append,
                        List.cons_append, List.cons_append, List.cons_append,
                        List.nil_append, parseStrBody.eq_def]
                      simp only [reduceIte, hex4, hhi, hlo,
                        show hexVal '0' = some 0 from by decide, harith]
                      rw [if_pos (by omega : c.toNat < 55296 ∨ 57343 < c.toNat)]
                      rw [ih]
                      simp [Char.ofNat_toNat]
                    · rw [if_neg h8, List.cons_append, List.nil_append,
                        parseStrBody.eq_def]
                      simp only [reduceIte, if_neg h1, if_neg h2,
                        if_neg (by omega : ¬(c.toNat < 32)), ih]

/-! ## Whitespace and head-shape lemmas -/

theorem skipWs_not_ws {c : Char} {r : List Char} (h : isJsonWs c = false) :
    skipWs (c :: r) = c :: r := by
  simp [skipWs, List.dropWhile_cons, h]

theorem stringMk_data (s : String) : String.mk s.data = s := rfl

theorem commaSep_pair (x y : List Char) (ys : List (List Char)) :
    commaSep (x :: y :: ys) = x ++ ',' :: commaSep (y :: ys) := rfl

theorem emitNum_head (i : Int) :
    ∃ c t, emitNum i = c :: t ∧ isJsonWs c = false ∧ c ≠ ']' ∧ c ≠ '}' ∧ c ≠ ',' ∧
      c ≠ '"' ∧ c ≠ '[' ∧ c ≠ '{' ∧ c ≠ 't' ∧ c ≠ 'f' ∧ c ≠ 'n' := by
  by_cases hneg : i < 0
  · refine ⟨'-', emitNatNum i.natAbs, ?_, by decide, by decide, by decide, by decide,
      by decide, by decide, by decide, by decide, by decide, by decide⟩
    rw [emitNum, if_pos hneg]
  · obtain ⟨c, t, hsh, hc⟩ := emitNatNum_head i.natAbs
    obtain ⟨_, _, _, _, _, h6, h7, h8, h9, h10, h11, _, _, _, _⟩ := isDigitChar_ne hc
    refine ⟨c, t, ?_, isDigitChar_not_ws hc, (isDigitChar_ne hc).2.2.2.2.2.2.2.2.2.2.2.1,
      (isDigitChar_ne hc).2.2.2.2.2.2.2.2.2.2.2.2.1,
      (isDigitChar_ne hc).2.2.2.2.2.2.2.2.2.2.2.2.2.1, h6, h7, h8, h9, h10, h11⟩
    rw [emitNum, if_neg hneg, hsh]

theorem emitV_shape : ∀ {f : Nat} {v : JsValue} {cs : List Char},
    emitV f v = some cs →
    ∃ c t, cs = c :: t ∧ isJsonWs c = false ∧ c ≠ ']' ∧ c ≠ '}' ∧ c ≠ ',' := by
  intro f v cs h
  match f, v with
  | 0, _ => simp [emitV] at h
  | f + 1, .str s =>
      have hcs : cs = strChars s := (Option.some.inj h).symm
      exact ⟨'"', _, hcs, by decide, by decide, by decide, by decide⟩
  | f + 1, .num i =>
      have hcs : cs = emitNum i := (Option.some.inj h).symm
      obtain ⟨c, t, hsh, hws, h1, h2, h3, _⟩ := emitNum_head i
      exact ⟨c, t, by rw [hcs, hsh], hws, h1, h2, h3⟩
  | f + 1, .bool true =>
      have hcs : cs = "true".data := (Option.some.inj h).symm
      exact ⟨'t', _, hcs, by decide, by decide, by decide, by decide⟩
  | f + 1, .bool false =>
      have hcs : cs = "false".data := (Option.some.inj h).symm
      exact ⟨'f', _, hcs, by decide, by decide, by decide, by decide⟩
  | f + 1, .null =>
      have hcs : cs = "null".data := (Option.some.inj h).symm
      exact ⟨'n', _, hcs, by decide, by decide, by decide, by decide⟩
  | f + 1, .bigint i => exact absurd h (by simp [emitV])
  | f + 1, .arr vs =>
      rcases hm : vs.mapM (emitV f) with _ | parts
      · rw [show emitV (f + 1) (.arr vs) = match vs.mapM (emitV f) with
              | some parts => some ('[' :: (commaSep parts ++ [']']))
              | none => none from rfl, hm] at h
        exact absurd h (by simp)
      · rw [show emitV (f + 1) (.arr vs) = match vs.mapM (emitV f) with
              | some parts => some ('[' :: (commaSep parts ++ [']']))
              | none => none from rfl, hm] at h
        have hcs : cs = '[' :: (commaSep parts ++ [']']) := (Option.some.inj h).symm
        exact ⟨'[', _, hcs, by decide, by decide, by decide, by decide⟩
  | f + 1, .obj kvs =>
      rcases hm : kvs.mapM (fun kv => (emitV f kv.2).map (fun e => strChars kv.1 ++ ':' :: e))
          with _ | parts
      · rw [show emitV (f + 1) (.obj kvs)
              = match kvs.mapM (fun kv => (emitV f kv.2).map (fun e => strChars kv.1 ++ ':' :: e)) with
              | some parts => some ('{' :: (commaSep parts ++ ['}']))
              | none => none from rfl, hm] at h
        exact absurd h (by simp)
      · rw [show emitV (f + 1) (.obj kvs)
              = match kvs.mapM (fun kv => (emitV f kv.2).map (fun e => strChars kv.1 ++ ':' :: e)) with
              | some parts => some ('{' :: (commaSep parts ++ ['}']))
              | none => none from rfl, hm] at h
        have hcs : cs = '{' :: (commaSep parts ++ ['}']) := (Option.some.inj h).symm
        exact ⟨'{', _, hcs, by decide, by decide, by decide, by decide⟩

/-! ## JS object-definition semantics -/

theorem objSet_app {o : List (String × JsValue)} {k : String}
    (h : ∀ kv ∈ o, kv.1 ≠ k) (v : JsValue) : objSet o k v = o ++ [(k, v)] := by
  unfold objSet
  rw [if_neg]
  simp only [List.any_eq_true, decide_eq_true_eq, not_exists]
  intro kv hkv
  exact h kv hkv.1 hkv.2

theorem spreadInto_cons (base : List (String × JsValue)) (k : String) (v : JsValue)
    (t : List (String × JsValue)) :
    spreadInto base ((k, v) :: t) = spreadInto (objSet base k v) t := rfl

theorem spreadInto_app : ∀ {p base : List (String × JsValue)},
    (∀ kv ∈ p, ∀ kv2 ∈ base, kv2.1 ≠ kv.1) → (p.map Prod.fst).Nodup →
    spreadInto base p = base ++ p := by
  intro p
  induction p with
  | nil => intro base _ _; simp [spreadInto]
  | cons kv t ih =>
      intro base hdisj hnd
      obtain ⟨k, v⟩ := kv
      rw [spreadInto_cons,
        objSet_app (fun kv2 hkv2 => hdisj (k, v) (List.mem_cons_self _ _) kv2 hkv2) v,
        ih ?_ ?_]
      · simp
      · intro kv1 hkv1 kv2 hkv2
        rcases List.mem_append.mp hkv2 with hin | hone
        · exact hdisj kv1 (List.mem_cons_of_mem _ hkv1) kv2 hin
        · have hk2 : kv2 = (k, v) := by simpa using hone
          subst hk2
          simp only [List.map_cons, List.nodup_cons] at hnd
          intro he
          apply hnd.1
          rw [show k = kv1.1 from he]
          exact List.mem_map_of_mem Prod.fst hkv1
      · simp only [List.map_cons, List.nodup_cons] at hnd
        exact hnd.2

theorem jsObjOf_nodup {p : List (String × JsValue)} (h : (p.map Prod.fst).Nodup) :
    jsObjOf p = p := by
  unfold jsObjOf
  rw [spreadInto_app (fun kv hkv kv2 hkv2 => absurd hkv2 (List.not_mem_nil kv2)) h]
  simp

/-! ## Round-trip: parsing a serialized value recovers it -/

theorem parseVal_succ (pf : Nat) (cs : List Char) :
    parseVal (pf + 1) cs =
      match skipWs cs with
      | [] => none
      | c :: r =>
        if c = '"' then
          match parseStrBody r with
          | some p => some (JsValue.str (String.mk p.1), p.2)
          | none => none
        else if c = '[' then
          match skipWs r with
          | [] => none
          | c2 :: r2 =>
              if c2 = ']' then some (.arr [], r2)
              else
                match parseItems pf (c2 :: r2) with
                | some p => some (JsValue.arr p.1, p.2)
                | none => none
        else if c = '{' then
          match skipWs r with
          | [] => none
          | c2 :: r2 =>
              if c2 = '}' then some (.obj [], r2)
              else
                match parseMembers pf (c2 :: r2) with
                | some p => some (JsValue.obj (jsObjOf p.1), p.2)
                | none => none
        else if c = 't' then
          match r with
          | 'r' :: 'u' :: 'e' :: r2 => some (.bool true, r2)
          | _ => none
        else if c = 'f' then
          match r with
          | 'a' :: 'l' :: 's' :: 'e' :: r2 => some (.bool false, r2)
          | _ => none
        else if c = 'n' then
          match r with
          | 'u' :: 'l' :: 'l' :: r2 => some (.null, r2)
          | _ => none
        else
          match parseNumber (c :: r) with
          | some p => some (JsValue.num p.1, p.2)
          | none => none := by
  rw [parseVal.eq_def]

theorem parseItems_succ (pf : Nat) (cs : List Char) :
    parseItems (pf + 1) cs =
      match parseVal pf cs with
      | none => none
      | some (v, r) =>
        match skipWs r with
        | [] => none
        | c :: r2 =>
            if c = ',' then
              match parseItems pf r2 with
              | some p => some (v :: p.1, p.2)
              | none => none
            else if c = ']' then some ([v], r2)
            else none := by
  rw [parseItems.eq_def]

theorem parseMembers_succ (pf : Nat) (cs : List Char) :
    parseMembers (pf + 1) cs =
      match skipWs cs with
      | [] => none
      | c0 :: r =>
        if c0 = '"' then
          match parseStrBody r with
          | none => none
          | some (k, r1) =>
            match skipWs r1 with
            | [] => none
            | c1 :: r2 =>
              if c1 = ':' then
                match parseVal pf r2 with
                | none => none
                | some (v, r3) =>
                  match skipWs r3 with
                  | [] => none
                  | c2 :: r4 =>
                      if c2 = ',' then
                        match parseMembers pf r4 with
                        | some p => some ((String.mk k, v) :: p.1, p.2)
                        | none => none
                      else if c2 = '}' then some ([(String.mk k, v)], r4)
                      else none
              else none
        else none := by
  rw [parseMembers.eq_def]

theorem parseItems_emit {f : Nat}
    (hval : ∀ (v : JsValue) (cs : List Char), emitV f v = some cs → Wf v →
      ∀ (pf : Nat) (rest : List Char), cs.length < pf → isDelim rest = true →
        parseVal pf (cs ++ rest) = some (v, rest)) :
    ∀ (vs : List JsValue) (parts : List (List Char)),
      vs.mapM (emitV f) = some parts → (∀ v ∈ vs, Wf v) → vs ≠ [] →
      ∀ (pf : Nat) (rest : List Char), (commaSep parts).length + 1 < pf →
        parseItems pf (commaSep parts ++ ']' :: rest) = some (vs, rest) := by
  intro vs
  induction vs with
  | nil => intro parts _ _ hne; exact absurd rfl hne
  | cons v1 t ih =>
      intro parts hm hwf _ pf rest hlen
      rcases he1 : emitV f v1 with _ | cs1
      · rw [List.mapM_cons, he1] at hm; simp at hm
      rcases ht : t.mapM (emitV f) with _ | pt
      · rw [List.mapM_cons, he1, ht] at hm; simp at hm
      have hparts : parts = cs1 :: pt := by
        rw [List.mapM_cons, he1, ht] at hm
        simp only [Option.bind_eq_bind, Option.some_bind, Option.pure_def,
          Option.some.injEq] at hm
        exact hm.symm
      subst hparts
      match pf, hlen with
      | pf + 1, hlen =>
        cases t with
        | nil =>
            have hpt : pt = [] := by
              rw [show ([] : List JsValue).mapM (emitV f) = some [] from rfl] at ht
              exact (Option.some.inj ht).symm
            subst hpt
            rw [show commaSep [cs1] = cs1 from rfl] at hlen ⊢
            rw [parseItems_succ]
            rw [hval v1 cs1 he1 (hwf v1 (List.mem_cons_self v1 [])) pf (']' :: rest)
              (by omega) rfl]
            simp [skipWs_not_ws (show isJsonWs ']' = false from by decide)]
        | cons v2 t2 =>
            rcases he2 : emitV f v2 with _ | cs2
            · rw [List.mapM_cons, he2] at ht; simp at ht
            rcases ht2 : t2.mapM (emitV f) with _ | pt2
            · rw [List.mapM_cons, he2, ht2] at ht; simp at ht
            have hpt : pt = cs2 :: pt2 := by
              rw [List.mapM_cons, he2, ht2] at ht
              simp only [Option.bind_eq_bind, Option.some_bind, Option.pure_def,
                Option.some.injEq] at ht
              exact ht.symm
            subst hpt
            rw [commaSep_pair] at hlen ⊢
            have hlen2 : cs1.length + ((commaSep (cs2 :: pt2)).length + 1) < pf := by
              simpa [List.length_append] using hlen
            rw [List.append_assoc, List.cons_append, parseItems_succ]
            rw [hval v1 cs1 he1 (hwf v1 (List.mem_cons_self v1 _)) pf
              (',' :: (commaSep (cs2 :: pt2) ++ ']' :: rest)) (by omega) rfl]
            simp only [skipWs_not_ws (show isJsonWs ',' = false from by decide), reduceIte]
            rw [ih (cs2 :: pt2) ht (fun v hv => hwf v (List.mem_cons_of_mem v1 hv))
              (by simp) pf rest (by omega)]

theorem parseMembers_emit {f : Nat}
    (hval : ∀ (v : JsValue) (cs : List Char), emitV f v = some cs → Wf v →
      ∀ (pf : Nat) (rest : List Char), cs.length < pf → isDelim rest = true →
        parseVal pf (cs ++ rest) = some (v, rest)) :
    ∀ (kvs : List (String × JsValue)) (parts : List (List Char)),
      kvs.mapM (fun kv => (emitV f kv.2).map (fun e => strChars kv.1 ++ ':' :: e)) = some parts →
      (∀ kv ∈ kvs, Wf kv.2) → kvs ≠ [] →
      ∀ (pf : Nat) (rest : List Char), (commaSep parts).length + 1 < pf →
        parseMembers pf (commaSep parts ++ '}' :: rest) = some (kvs, rest) := by
  intro kvs
  induction kvs with
  | nil => intro parts _ _ hne; exact absurd rfl hne
  | cons kv1 t ih =>
      obtain ⟨k1, v1⟩ := kv1
      intro parts hm hwf _ pf rest hlen
      rcases he1 : emitV f v1 with _ | cs1
      · rw [List.mapM_cons] at hm
        simp only [he1, Option.map_none', Option.bind_eq_bind, Option.none_bind] at hm
        exact Option.noConfusion hm
      rcases ht : t.mapM (fun kv => (emitV f kv.2).map (fun e => strChars kv.1 ++ ':' :: e))
          with _ | pt
      · rw [List.mapM_cons] at hm
        simp only [he1, Option.map_some', Option.bind_eq_bind, Option.some_bind, ht,
          Option.none_bind] at hm
        exact Option.noConfusion hm
      have hparts : parts = (strChars k1 ++ ':' :: cs1) :: pt := by
        rw [List.mapM_cons] at hm
        simp only [he1, ht, Option.map_some', Option.bind_eq_bind, Option.some_bind,
          Option.pure_def, Option.some.injEq] at hm
        exact hm.symm
      subst hparts
      match pf, hlen with
      | pf + 1, hlen =>
        cases t with
        | nil =>
            have hpt : pt = [] := by
              rw [show ([] : List (String × JsValue)).mapM
                    (fun kv => (emitV f kv.2).map (fun e => strChars kv.1 ++ ':' :: e))
                  = some [] from rfl] at ht
              exact (Option.some.inj ht).symm
            subst hpt
            rw [show commaSep [strChars k1 ++ ':' :: cs1] = strChars k1 ++ ':' :: cs1 from rfl]
              at hlen ⊢
            have hlen2 : cs1.length < pf := by
              simp only [strChars, List.length_append, List.length_cons,
                List.cons_append] at hlen
              omega
            rw [show (strChars k1 ++ ':' :: cs1) ++ '}' :: rest
                = '"' :: (escStr k1.data ++ '"' :: (':' :: (cs1 ++ '}' :: rest))) from by
              simp [strChars, List.append_assoc]]
            rw [parseMembers_succ, skipWs_not_ws (show isJsonWs '"' = false from by decide)]
            simp only [reduceIte, parseStrBody_escStr,
              skipWs_not_ws (show isJsonWs ':' = false from by decide)]
            rw [hval v1 cs1 he1 (hwf (k1, v1) (List.mem_cons_self _ _)) pf ('}' :: rest)
              hlen2 rfl]
            simp [skipWs_not_ws (show isJsonWs '}' = false from by decide), stringMk_data]
        | cons kv2 t2 =>
            obtain ⟨k2, v2⟩ := kv2
            rcases he2 : emitV f v2 with _ | cs2
            · rw [List.mapM_cons] at ht
              simp only [he2, Option.map_none', Option.bind_eq_bind, Option.none_bind] at ht
              exact Option.noConfusion ht
            rcases ht2 : t2.mapM (fun kv => (emitV f kv.2).map (fun e => strChars kv.1 ++ ':' :: e))
                with _ | pt2
            · rw [List.mapM_cons] at ht
              simp only [he2, Option.map_some', Option.bind_eq_bind, Option.some_bind, ht2,
                Option.none_bind] at ht
              exact Option.noConfusion ht
            have hpt : pt = (strChars k2 ++ ':' :: cs2) :: pt2 := by
              rw [List.mapM_cons] at ht
              simp only [he2, ht2, Option.map_some', Option.bind_eq_bind, Option.some_bind,
                Option.pure_def, Option.some.injEq] at ht
              exact ht.symm
            subst hpt
            rw [commaSep_pair] at hlen ⊢
            have htot := hlen
            simp only [List.length_append, List.length_cons] at htot
            rw [show ((strChars k1 ++ ':' :: cs1)
                  ++ ',' :: commaSep ((strChars k2 ++ ':' :: cs2) :: pt2)) ++ '}' :: rest
                = '"' :: (escStr k1.data ++ '"' :: (':' :: (cs1
                    ++ ',' :: (commaSep ((strChars k2 ++ ':' :: cs2) :: pt2)
                        ++ '}' :: rest)))) from by
              simp [strChars, List.append_assoc]]
            rw [parseMembers_succ, skipWs_not_ws (show isJsonWs '"' = false from by decide)]
            simp only [reduceIte, parseStrBody_escStr,
              skipWs_not_ws (show isJsonWs ':' = false from by decide)]
            rw [hval v1 cs1 he1 (hwf (k1, v1) (List.mem_cons_self _ _)) pf
              (',' :: (commaSep ((strChars k2 ++ ':' :: cs2) :: pt2) ++ '}' :: rest))
              (by omega) rfl]
            simp only [skipWs_not_ws (show isJsonWs ',' = false from by decide), reduceIte]
            rw [ih ((strChars k2 ++ ':' :: cs2) :: pt2) ht
              (fun kv hkv => hwf kv (List.mem_cons_of_mem _ hkv)) (by simp) pf rest
              (by omega)]

theorem parseVal_emitV : ∀ (f : Nat) (v : JsValue) (cs : List Char),
    emitV f v = some cs → Wf v →
    ∀ (pf : Nat) (rest : List Char), cs.length < pf → isDelim rest = true →
      parseVal pf (cs ++ rest) = some (v, rest) := by
  intro f
  induction f with
  | zero => intro v cs h; simp [emitV] at h
  | succ f ih =>
      intro v cs h hwf pf rest hlen hdelim
      match pf, hlen with
      | pf + 1, hlen =>
      match v with
      | .str s =>
          have hcs : cs = strChars s := (Option.some.inj h).symm
          subst hcs
          rw [show strChars s ++ rest = '"' :: (escStr s.data ++ '"' :: rest) from by
            simp [strChars, List.append_assoc]]
          rw [parseVal_succ, skipWs_not_ws (show isJsonWs '"' = false from by decide)]
          simp [parseStrBody_escStr, stringMk_data]
      | .num i =>
          have hi : nearestDoubleInt i = i := by
            cases hwf with
            | num _ h0 => exact h0
          have hcs : cs = emitNum i := (Option.some.inj h).symm
          subst hcs
          obtain ⟨c, t, hsh, hws, _, _, _, hq, hlb, hob, hts, hfs, hns⟩ := emitNum_head i
          rw [hsh, List.cons_append, parseVal_succ, skipWs_not_ws hws]
          simp only [if_neg hq, if_neg hlb, if_neg hob, if_neg hts, if_neg hfs, if_neg hns]
          rw [← List.cons_append, ← hsh, parseNumber_emitNum hi hdelim]
      | .bool true =>
          have hcs : cs = "true".data := (Option.some.inj h).symm
          subst hcs
          rw [show ("true".data : List Char) ++ rest = 't' :: 'r' :: 'u' :: 'e' :: rest from rfl]
          rw [parseVal_succ, skipWs_not_ws (show isJsonWs 't' = false from by decide)]
          simp
      | .bool false =>
          have hcs : cs = "false".data := (Option.some.inj h).symm
          subst hcs
          rw [show ("false".data : List Char) ++ rest
              = 'f' :: 'a' :: 'l' :: 's' :: 'e' :: rest from rfl]
          rw [parseVal_succ, skipWs_not_ws (show isJsonWs 'f' = false from by decide)]
          simp
      | .null =>
          have hcs : cs = "null".data := (Option.some.inj h).symm
          subst hcs
          rw [show ("null".data : List Char) ++ rest = 'n' :: 'u' :: 'l' :: 'l' :: rest from rfl]
          rw [parseVal_succ, skipWs_not_ws (show isJsonWs 'n' = false from by decide)]
          simp
      | .bigint i => exact Option.noConfusion h
      | .arr vs =>
          rcases hm : vs.mapM (emitV f) with _ | parts
          · rw [show emitV (f + 1) (.arr vs) = match vs.mapM (emitV f) with
                  | some parts => some ('[' :: (commaSep parts ++ [']']))
                  | none => none from rfl, hm] at h
            exact Option.noConfusion h
          · rw [show emitV (f + 1) (.arr vs) = match vs.mapM (emitV f) with
                  | some parts => some ('[' :: (commaSep parts ++ [']']))
                  | none => none from rfl, hm] at h
            have hcs : cs = '[' :: (commaSep parts ++ [']']) := (Option.some.inj h).symm
            subst hcs
            have hwfl : ∀ x ∈ vs, Wf x := by
              cases hwf with
              | arr _ h0 => exact h0
            cases vs with
            | nil =>
                have hparts : parts = [] := by
                  rw [show ([] : List JsValue).mapM (emitV f) = some [] from rfl] at hm
                  exact (Option.some.inj hm).symm
                subst hparts
                rw [show ('[' :: (commaSep [] ++ [']'])) ++ rest = '[' :: ']' :: rest from rfl]
                rw [parseVal_succ, skipWs_not_ws (show isJsonWs '[' = false from by decide)]
                simp [skipWs_not_ws (show isJsonWs ']' = false from by decide)]
            | cons v1 t =>
                rcases he1 : emitV f v1 with _ | cs1
                · rw [List.mapM_cons, he1] at hm
                  simp only [Option.bind_eq_bind, Option.none_bind] at hm
                  exact Option.noConfusion hm
                rcases ht : t.mapM (emitV f) with _ | pt
                · rw [List.mapM_cons, he1, ht] at hm
                  simp only [Option.bind_eq_bind, Option.some_bind, Option.none_bind] at hm
                  exact Option.noConfusion hm
                have hparts : parts = cs1 :: pt := by
                  rw [List.mapM_cons, he1, ht] at hm
                  simp only [Option.bind_eq_bind, Option.some_bind, Option.pure_def,
                    Option.some.injEq] at hm
                  exact hm.symm
                subst hparts
                obtain ⟨c1, t1, hsh1, hws1, hbr1, _, _⟩ := emitV_shape he1
                have htl : ∃ tl, commaSep (cs1 :: pt) ++ ']' :: rest = c1 :: tl := by
                  cases pt with
                  | nil =>
                      refine ⟨t1 ++ ']' :: rest, ?_⟩
                      rw [show commaSep [cs1] = cs1 from rfl, hsh1]
                      simp
                  | cons p2 pt2 =>
                      refine ⟨(t1 ++ ',' :: commaSep (p2 :: pt2)) ++ ']' :: rest, ?_⟩
                      rw [commaSep_pair, hsh1]
                      simp
                obtain ⟨tl, htl⟩ := htl
                rw [show ('[' :: (commaSep (cs1 :: pt) ++ [']'])) ++ rest
                    = '[' :: (commaSep (cs1 :: pt) ++ ']' :: rest) from by simp]
                rw [parseVal_succ, skipWs_not_ws (show isJsonWs '[' = false from by decide)]
                simp only [if_neg (show ¬(('[' : Char) = '"') from by decide), reduceIte]
                rw [htl, skipWs_not_ws hws1]
                simp only [if_neg hbr1]
                simp only [List.length_cons, List.length_append, List.length_singleton] at hlen
                rw [← htl, parseItems_emit ih (v1 :: t) (cs1 :: pt) hm hwfl (by simp) pf rest
                  (by omega)]
      | .obj kvs =>
          rcases hm : kvs.mapM (fun kv => (emitV f kv.2).map (fun e => strChars kv.1 ++ ':' :: e))
              with _ | parts
          · rw [show emitV (f + 1) (.obj kvs)
                  = match kvs.mapM (fun kv => (emitV f kv.2).map (fun e => strChars kv.1 ++ ':' :: e)) with
                  | some parts => some ('{' :: (commaSep parts ++ ['}']))
                  | none => none from rfl, hm] at h
            exact Option.noConfusion h
          · rw [show emitV (f + 1) (.obj kvs)
                  = match kvs.mapM (fun kv => (emitV f kv.2).map (fun e => strChars kv.1 ++ ':' :: e)) with
                  | some parts => some ('{' :: (commaSep parts ++ ['}']))
                  | none => none from rfl, hm] at h
            have hcs : cs = '{' :: (commaSep parts ++ ['}']) := (Option.some.inj h).symm
            subst hcs
            have hnd : (kvs.map Prod.fst).Nodup := by
              cases hwf with
              | obj _ h0 _ => exact h0
            have hwfl : ∀ kv ∈ kvs, Wf kv.2 := by
              cases hwf with
              | obj _ _ h1 => exact h1
            cases kvs with
            | nil =>
                have hparts : parts = [] := by
                  rw [show ([] : List (String × JsValue)).mapM
                        (fun kv => (emitV f kv.2).map (fun e => strChars kv.1 ++ ':' :: e))
                      = some [] from rfl] at hm
                  exact (Option.some.inj hm).symm
                subst hparts
                rw [show ('{' :: (commaSep [] ++ ['}'])) ++ rest = '{' :: '}' :: rest from rfl]
                rw [parseVal_succ, skipWs_not_ws (show isJsonWs '{' = false from by decide)]
                simp [skipWs_not_ws (show isJsonWs '}' = false from by decide)]
            | cons kv1 t =>
                obtain ⟨k1, v1⟩ := kv1
                rcases he1 : emitV f v1 with _ | cs1
                · rw [List.mapM_cons] at hm
                  simp only [he1, Option.map_none', Option.bind_eq_bind,
                    Option.none_bind] at hm
                  exact Option.noConfusion hm
                rcases ht : t.mapM (fun kv => (emitV f kv.2).map (fun e => strChars kv.1 ++ ':' :: e))
                    with _ | pt
                · rw [List.mapM_cons] at hm
                  simp only [he1, Option.map_some', Option.bind_eq_bind, Option.some_bind,
                    ht, Option.none_bind] at hm
                  exact Option.noConfusion hm
                have hparts : parts = (strChars k1 ++ ':' :: cs1) :: pt := by
                  rw [List.mapM_cons] at hm
                  simp only [he1, ht, Option.map_some', Option.bind_eq_bind, Option.some_bind,
                    Option.pure_def, Option.some.injEq] at hm
                  exact hm.symm
                subst hparts
                have htl : ∃ tl, commaSep ((strChars k1 ++ ':' :: cs1) :: pt) ++ '}' :: rest
                    = '"' :: tl := by
                  cases pt with
                  | nil =>
                      refine ⟨(escStr k1.data ++ ['"'] ++ ':' :: cs1) ++ '}' :: rest, ?_⟩
                      rw [show commaSep [strChars k1 ++ ':' :: cs1]
                          = strChars k1 ++ ':' :: cs1 from rfl]
                      simp [strChars]
                  | cons p2 pt2 =>
                      refine ⟨((escStr k1.data ++ ['"'] ++ ':' :: cs1)
                          ++ ',' :: commaSep (p2 :: pt2)) ++ '}' :: rest, ?_⟩
                      rw [commaSep_pair]
                      simp [strChars]
                obtain ⟨tl, htl⟩ := htl
                rw [show ('{' :: (commaSep ((strChars k1 ++ ':' :: cs1) :: pt) ++ ['}'])) ++ rest
                    = '{' :: (commaSep ((strChars k1 ++ ':' :: cs1) :: pt) ++ '}' :: rest) from by
                  simp]
                rw [parseVal_succ, skipWs_not_ws (show isJsonWs '{' = false from by decide)]
                simp only [if_neg (show ¬(('{' : Char) = '"') from by decide),
                  if_neg (show ¬(('{' : Char) = '[') from by decide), reduceIte]
                rw [htl, skipWs_not_ws (show isJsonWs '"' = false from by decide)]
                simp only [if_neg (show ('"' : Char) ≠ '}' from by decide)]
                simp only [List.length_cons, List.length_append, List.length_singleton] at hlen
                rw [← htl, parseMembers_emit ih ((k1, v1) :: t) ((strChars k1 ++ ':' :: cs1) :: pt)
                  hm hwfl (by simp) pf rest (by omega)]
                simp [jsObjOf_nodup hnd]

/-- Parsing a stringified well-formed value recovers it exactly. -/
theorem parseJson_stringify {v : JsValue} {s : String}
    (h : jsonStringify v = some s) (hwf : Wf v) : parseJson s = some v := by
  rcases he : emitV stringifyFuel v with _ | cs
  · rw [jsonStringify, he] at h
    exact Option.noConfusion h
  · rw [jsonStringify, he] at h
    have hs : s = String.mk cs := by
      simp only [Option.map_some', Option.some.injEq] at h
      exact h.symm
    subst hs
    unfold parseJson
    have hp := parseVal_emitV stringifyFuel v cs he hwf (cs.length + 1) [] (by omega) rfl
    rw [List.append_nil] at hp
    rw [show (String.mk cs).data = cs from rfl, hp]
    simp [skipWs]

/-! ## Well-formedness of the merged parameter object -/

theorem objSet_nodup {o : List (String × JsValue)} {k : String} {v : JsValue}
    (h : (o.map Prod.fst).Nodup) : ((objSet o k v).map Prod.fst).Nodup := by
  unfold objSet
  split
  · have hkeys : (o.map (fun kv => if kv.1 = k then (kv.1, v) else kv)).map Prod.fst
        = o.map Prod.fst := by
      rw [List.map_map]
      apply List.map_congr_left
      intro kv _
      by_cases hkv : kv.1 = k <;> simp [hkv]
    rw [hkeys]
    exact h
  · rename_i hmem
    rw [List.map_append]
    simp only [List.map_cons, List.map_nil]
    rw [List.nodup_append]
    refine ⟨h, List.nodup_singleton k, ?_⟩
    intro a ha hb
    have hak : a = k := by simpa using hb
    subst hak
    rw [List.mem_map] at ha
    obtain ⟨kv, hkv, hfst⟩ := ha
    simp only [List.any_eq_true, decide_eq_true_eq, not_exists] at hmem
    exact hmem kv ⟨hkv, hfst⟩

theorem spreadInto_nodup : ∀ {p base : List (String × JsValue)},
    (base.map Prod.fst).Nodup → ((spreadInto base p).map Prod.fst).Nodup := by
  intro p
  induction p with
  | nil => intro base h; exact h
  | cons kv1 t ih =>
      intro base h
      obtain ⟨k1, v1⟩ := kv1
      rw [spreadInto_cons]
      exact ih (objSet_nodup h)

theorem objSet_values {o : List (String × JsValue)} {k : String} {v : JsValue} :
    ∀ kv ∈ objSet o k v, kv.2 = v ∨ kv ∈ o := by
  unfold objSet
  split
  · intro kv hkv
    rw [List.mem_map] at hkv
    obtain ⟨x, hx, hkv⟩ := hkv
    by_cases hxk : x.1 = k
    · left
      rw [← hkv]
      simp [hxk]
    · right
      rw [← hkv]
      simp only [hxk, if_false]
      exact hx
  · intro kv hkv
    rcases List.mem_append.mp hkv with h1 | h2
    · right; exact h1
    · left
      have hkv2 : kv = (k, v) := by simpa using h2
      rw [hkv2]

theorem spreadInto_wf : ∀ {p base : List (String × JsValue)},
    (∀ kv ∈ base, Wf kv.2) → (∀ kv ∈ p, Wf kv.2) →
    ∀ kv ∈ spreadInto base p, Wf kv.2 := by
  intro p
  induction p with
  | nil => intro base hb _ kv hkv; exact hb kv hkv
  | cons kv1 t ih =>
      intro base hb hp kv hkv
      obtain ⟨k1, v1⟩ := kv1
      rw [spreadInto_cons] at hkv
      refine ih ?_ (fun x hx => hp x (List.mem_cons_of_mem _ hx)) kv hkv
      intro x hx
      rcases objSet_values x hx with h1 | h2
      · rw [h1]
        exact hp (k1, v1) (List.mem_cons_self _ _)
      · exact hb x h2

/-- The object `_buildRPCReq` serializes is well-formed whenever the caller's
parameter values are. -/
theorem mergedObj_wf (a : String) (p : List (String × JsValue))
    (hp : ∀ kv ∈ p, Wf kv.2) : Wf (.obj (spreadInto [("action", .str a)] p)) := by
  refine Wf.obj _ (spreadInto_nodup (by simp)) ?_
  refine spreadInto_wf ?_ hp
  intro kv hkv
  have hkv2 : kv = ("action", JsValue.str a) := by simpa using hkv
  rw [hkv2]
  exact Wf.str a

/-- Spreading parameters over an object keeps the first key in first
position (its value may be overwritten). -/
theorem spreadInto_first : ∀ (p : List (String × JsValue)) (k0 : String) (v0 : JsValue)
    (base0 : List (String × JsValue)),
    ∃ w rest2, spreadInto ((k0, v0) :: base0) p = (k0, w) :: rest2 := by
  intro p
  induction p with
  | nil => intro k0 v0 base0; exact ⟨v0, base0, rfl⟩
  | cons kv t ih =>
      intro k0 v0 base0
      obtain ⟨k, v⟩ := kv
      rw [spreadInto_cons]
      unfold objSet
      split
      · by_cases hk : k0 = k
        · subst hk
          simp only [List.map_cons, if_pos rfl]
          exact ih k0 v _
        · simp only [List.map_cons, if_neg hk]
          exact ih k0 v0 _
      · rw [List.cons_append]
        exact ih k0 v0 _

/-- A serialized object whose first member has key `k0` starts with the
opening brace, the quoted key and the colon. -/
theorem jsonStringify_obj_first (k0 : String) (w : JsValue)
    (restm : List (String × JsValue)) (s : String)
    (h : jsonStringify (.obj ((k0, w) :: restm)) = some s) :
    ∃ z, s.data = '{' :: (strChars k0 ++ ':' :: z) := by
  unfold jsonStringify at h
  rw [show stringifyFuel = 9999 + 1 from rfl] at h
  rcases he : emitV (9999 + 1) (.obj ((k0, w) :: restm)) with _ | cs
  · rw [he] at h
    exact Option.noConfusion h
  · rw [he] at h
    have hs : s = String.mk cs := by
      simp only [Option.map_some', Option.some.injEq] at h
      exact h.symm
    subst hs
    rw [show emitV (9999 + 1) (.obj ((k0, w) :: restm))
        = match ((k0, w) :: restm).mapM
            (fun kv => (emitV 9999 kv.2).map (fun e => strChars kv.1 ++ ':' :: e)) with
        | some parts => some ('{' :: (commaSep parts ++ ['}']))
        | none => none from rfl] at he
    rcases hm : ((k0, w) :: restm).mapM
        (fun kv => (emitV 9999 kv.2).map (fun e => strChars kv.1 ++ ':' :: e)) with _ | parts
    · rw [hm] at he
      exact Option.noConfusion he
    · rw [hm] at he
      have hcs : cs = '{' :: (commaSep parts ++ ['}']) := (Option.some.inj he).symm
      subst hcs
      rcases he0 : emitV 9999 w with _ | e0
      · rw [List.mapM_cons] at hm
        simp only [he0, Option.map_none', Option.bind_eq_bind, Option.none_bind] at hm
        exact Option.noConfusion hm
      rcases ht : restm.mapM (fun kv => (emitV 9999 kv.2).map (fun e => strChars kv.1 ++ ':' :: e))
          with _ | pt
      · rw [List.mapM_cons] at hm
        simp only [he0, Option.map_some', Option.bind_eq_bind, Option.some_bind, ht,
          Option.none_bind] at hm
        exact Option.noConfusion hm
      have hparts : parts = (strChars k0 ++ ':' :: e0) :: pt := by
        rw [List.mapM_cons] at hm
        simp only [he0, ht, Option.map_some', Option.bind_eq_bind, Option.some_bind,
          Option.pure_def, Option.some.injEq] at hm
        exact hm.symm
      subst hparts
      cases pt with
      | nil =>
          refine ⟨e0 ++ ['}'], ?_⟩
          rw [show commaSep [strChars k0 ++ ':' :: e0] = strChars k0 ++ ':' :: e0 from rfl]
          simp
      | cons p2 pt2 =>
          refine ⟨e0 ++ ',' :: (commaSep (p2 :: pt2) ++ ['}']), ?_⟩
          rw [commaSep_pair]
          simp

/-! # Claim theorems -/

/-- Claim C1: for every action name `a`, `_buildRPCReq` returns a descriptor
whose `url` equals `nodeAddress + "/"` regardless of `a` or the parameters;
when parameters are absent the body is exactly the serialized object with the
single `action` member (for escape-free names, the string with the quoted
action name); when parameters `p` are supplied the body decodes to `p`
merged with the `action` member, and the `action` key is serialized
first. -/
theorem C1_buildRPCReq_spec (c : RaiClient) (a : String) :
    (∀ (p : Option (List (String × JsValue))) (d : RPCReq),
        buildRPCReq c a p = Except.ok d → d.url = c.nodeAddress ++ "/")
    ∧ buildRPCReq c a none = Except.ok
        ⟨c.nodeAddress ++ "/",
          String.mk ('{' :: (strChars "action" ++ ':' :: (strChars a ++ ['}'])))⟩
    ∧ (∀ (p : List (String × JsValue)), (∀ kv ∈ p, Wf kv.2) →
        ∀ (d : RPCReq), buildRPCReq c a (some p) = Except.ok d →
          parseJson d.body = some (.obj (spreadInto [("action", .str a)] p))
          ∧ ∃ z, d.body.data = '{' :: (strChars "action" ++ ':' :: z)) := by
  refine ⟨?_, ?_, ?_⟩
  · intro p d h
    cases p with
    | none =>
        simp only [buildRPCReq] at h
        rcases hs : jsonStringify (.obj [("action", .str a)]) with _ | body
        · rw [hs] at h
          exact Except.noConfusion h
        · rw [hs] at h
          have hd := Except.ok.inj h
          rw [← hd]
    | some p =>
        simp only [buildRPCReq] at h
        rcases hs : jsonStringify (.obj (spreadInto [("action", .str a)] p)) with _ | body
        · rw [hs] at h
          exact Except.noConfusion h
        · rw [hs] at h
          have hd := Except.ok.inj h
          rw [← hd]
  · rfl
  · intro p hp d h
    simp only [buildRPCReq] at h
    rcases hs : jsonStringify (.obj (spreadInto [("action", .str a)] p)) with _ | body
    · rw [hs] at h
      exact Except.noConfusion h
    · rw [hs] at h
      have hd := Except.ok.inj h
      rw [← hd]
      constructor
      · exact parseJson_stringify hs (mergedObj_wf a p hp)
      · obtain ⟨w, rest2, hsp⟩ := spreadInto_first p "action" (.str a) []
        rw [hsp] at hs
        exact jsonStringify_obj_first "action" w rest2 body hs

/-- Witness for C1: the concrete scenario of the spec (`block_count` with
`nodeAddress = "xrbNodeAddress"`) and the `account_balance` scenario with a
parameter. -/
theorem C1_witness :
    buildRPCReq ⟨"xrbNodeAddress", true⟩ "block_count" none
      = Except.ok ⟨"xrbNodeAddress/", "\x7b\"action\":\"block_count\"\x7d"⟩
    ∧ parseJson "\x7b\"action\":\"account_balance\",\"account\":\"xrbWalletAddress\"\x7d"
      = some (.obj [("action", .str "account_balance"),
          ("account", .str "xrbWalletAddress")]) := by
  constructor
  · have h := (C1_buildRPCReq_spec ⟨"xrbNodeAddress", true⟩ "block_count").2.1
    exact h.trans (by rfl)
  · have hwfp : ∀ kv ∈ [("account", JsValue.str "xrbWalletAddress")], Wf kv.2 := by
      intro kv hkv
      have hk : kv = ("account", JsValue.str "xrbWalletAddress") := by simpa using hkv
      rw [hk]
      exact Wf.str _
    have h := ((C1_buildRPCReq_spec ⟨"xrbNodeAddress", true⟩ "account_balance").2.2
      [("account", JsValue.str "xrbWalletAddress")] hwfp
      ⟨"xrbNodeAddress/",
        "\x7b\"action\":\"account_balance\",\"account\":\"xrbWalletAddress\"\x7d"⟩
      (by rfl)).1
    exact h.trans (by rfl)

/-- Claim C2: whenever a response arrives with a status code strictly
outside 200..299, the call's outcome is a rejection carrying that status
code — the promise never resolves, whatever the body holds, because the
status rejection is the first settle and later parse/resolve calls cannot
change a settled promise. -/
theorem C2_status_outside_2xx_rejects (c : RaiClient) (action : String)
    (params : Option (List (String × JsValue))) (resp : Response) (req : RPCReq)
    (hok : buildRPCReq c action params = Except.ok req)
    (hstatus : resp.statusCode < 200 ∨ 299 < resp.statusCode) :
    sendOutcome c action params resp
      = some (.reject (.statusError resp.statusCode)) := by
  unfold sendOutcome outcomeOf sendEvents
  rw [hok, if_pos hstatus]
  simp [settlesOf]

/-- Witness for C2: a 404 with a syntactically valid JSON body and decoding
enabled still rejects with the status error. -/
theorem C2_witness :
    sendOutcome ⟨"http://localhost:7076", true⟩ "block_count" none
        ⟨404, ["\x7b\"ok\":true\x7d"]⟩
      = some (.reject (.statusError 404)) :=
  C2_status_outside_2xx_rejects ⟨"http://localhost:7076", true⟩ "block_count" none
    ⟨404, ["\x7b\"ok\":true\x7d"]⟩ ⟨"http://localhost:7076/", "\x7b\"action\":\"block_count\"\x7d"⟩
    (by rfl) (by decide)

/-- Claim C3: with decoding enabled, a success status and a body that is
not valid JSON reject with the parse error, never resolving. -/
theorem C3_decode_failure_rejects (c : RaiClient) (action : String)
    (params : Option (List (String × JsValue))) (resp : Response) (req : RPCReq)
    (hok : buildRPCReq c action params = Except.ok req)
    (hdeser : c.deserializeJSON = true)
    (hstatus : 200 ≤ resp.statusCode ∧ resp.statusCode ≤ 299)
    (hbad : parseJson (String.join resp.chunks) = none) :
    sendOutcome c action params resp = some (.reject .parseError) := by
  unfold sendOutcome outcomeOf sendEvents
  rw [hok, if_neg (by omega : ¬(resp.statusCode < 200 ∨ 299 < resp.statusCode)), hdeser]
  simp [settlesOf, hbad]

/-- Witness for C3: status 200, decoding on, a plain-text body. -/
theorem C3_witness :
    sendOutcome ⟨"http://localhost:7076", true⟩ "block_count" none
        ⟨200, ["You are being rate-limited"]⟩
      = some (.reject .parseError) :=
  C3_decode_failure_rejects ⟨"http://localhost:7076", true⟩ "block_count" none
    ⟨200, ["You are being rate-limited"]⟩
    ⟨"http://localhost:7076/", "\x7b\"action\":\"block_count\"\x7d"⟩
    (by rfl) rfl (by decide) (by rfl)

/-- Claim C4: with decoding disabled and a success status, the call
resolves with exactly the concatenation of the body chunks in arrival
order, and no JSON parse is attempted anywhere in the call. -/
theorem C4_raw_passthrough (c : RaiClient) (action : String)
    (params : Option (List (String × JsValue))) (resp : Response) (req : RPCReq)
    (hok : buildRPCReq c action params = Except.ok req)
    (hdeser : c.deserializeJSON = false)
    (hstatus : 200 ≤ resp.statusCode ∧ resp.statusCode ≤ 299) :
    sendOutcome c action params resp
      = some (.resolve (.raw (String.join resp.chunks)))
    ∧ ¬ attemptsParse (sendEvents c action params resp) := by
  constructor
  · unfold sendOutcome outcomeOf sendEvents
    rw [hok, if_neg (by omega : ¬(resp.statusCode < 200 ∨ 299 < resp.statusCode)), hdeser]
    simp [settlesOf]
  · unfold attemptsParse sendEvents
    rw [hok, if_neg (by omega : ¬(resp.statusCode < 200 ∨ 299 < resp.statusCode)), hdeser]
    simp

/-- Witness for C4: two chunks concatenate in arrival order. -/
theorem C4_witness :
    sendOutcome ⟨"http://localhost:7076", false⟩ "block_count" none
        ⟨200, ["\x7b\"count\":\"1\",", "\"unchecked\":\"5\"\x7d"]⟩
      = some (.resolve (.raw "\x7b\"count\":\"1\",\"unchecked\":\"5\"\x7d"))
    ∧ ¬ attemptsParse (sendEvents ⟨"http://localhost:7076", false⟩ "block_count" none
        ⟨200, ["\x7b\"count\":\"1\",", "\"unchecked\":\"5\"\x7d"]⟩) := by
  have h := C4_raw_passthrough ⟨"http://localhost:7076", false⟩ "block_count" none
    ⟨200, ["\x7b\"count\":\"1\",", "\"unchecked\":\"5\"\x7d"]⟩
    ⟨"http://localhost:7076/", "\x7b\"action\":\"block_count\"\x7d"⟩
    (by rfl) rfl (by decide)
  exact ⟨h.1.trans (by rfl), h.2⟩

/-- Claim C6: when serialization of the parameters fails, the call rejects
with the serialization error before any network step: the trace is the
single rejection, with no connection opened and nothing written. -/
theorem C6_serialize_failure_no_network (c : RaiClient) (action : String)
    (params : Option (List (String × JsValue))) (e : JsErr) (resp : Response)
    (hfail : buildRPCReq c action params = Except.error e) :
    sendEvents c action params resp = [.settle (.reject e)]
    ∧ connectsOf (sendEvents c action params resp) = []
    ∧ writesOf (sendEvents c action params resp) = []
    ∧ sendOutcome c action params resp = some (.reject e) := by
  have htrace : sendEvents c action params resp = [.settle (.reject e)] := by
    unfold sendEvents
    rw [hfail]
  refine ⟨htrace, ?_, ?_, ?_⟩
  · rw [htrace]; rfl
  · rw [htrace]; rfl
  · unfold sendOutcome outcomeOf
    rw [htrace]
    rfl

/-- Witness for C6: a BigInt parameter value makes `JSON.stringify` throw,
so the call rejects before any network activity. -/
theorem C6_witness :
    sendEvents ⟨"http://localhost:7076", true⟩ "payment_wait"
        (some [("amount", .bigint 5)]) ⟨200, []⟩
      = [.settle (.reject .serializeError)]
    ∧ connectsOf (sendEvents ⟨"http://localhost:7076", true⟩ "payment_wait"
        (some [("amount", .bigint 5)]) ⟨200, []⟩) = []
    ∧ writesOf (sendEvents ⟨"http://localhost:7076", true⟩ "payment_wait"
        (some [("amount", .bigint 5)]) ⟨200, []⟩) = []
    ∧ sendOutcome ⟨"http://localhost:7076", true⟩ "payment_wait"
        (some [("amount", .bigint 5)]) ⟨200, []⟩ = some (.reject .serializeError) :=
  C6_serialize_failure_no_network ⟨"http://localhost:7076", true⟩ "payment_wait"
    (some [("amount", .bigint 5)]) .serializeError ⟨200, []⟩ (by rfl)

/-- Claim C5 fails in the code: WHATWG `URL.protocol` keeps the trailing
colon, so for an https node address the comparison
`url.protocol === "https"` compares `"https:"` with `"https"` and is
false.  The transport selection therefore maps the https URL — and in
fact every URL — to the plain `http` module. -/
theorem C5_https_url_gets_http_module :
    (parseURL "https://localhost:7076/").protocol = "https:"
    ∧ libFor (parseURL "https://localhost:7076/") = Lib.http
    ∧ connectsOf (sendEvents ⟨"https://localhost:7076", true⟩ "block_count" none
        ⟨200, ["\x7b\x7d"]⟩)
      = [(Lib.http, mkRequestOptions (parseURL "https://localhost:7076/"))]
    ∧ ∀ s : String, libFor (parseURL s) = Lib.http := by
  refine ⟨rfl, rfl, rfl, ?_⟩
  intro s
  unfold libFor
  rw [if_neg]
  intro h
  have h2 : s.data.takeWhile (fun c => c ≠ ':') ++ [':'] = "https".data := by
    have h1 := congrArg String.data h
    simpa [parseURL] using h1
  have h3 := congrArg List.getLast? h2
  rw [List.getLast?_concat] at h3
  exact absurd (Option.some.inj h3) (by decide)

/-- Counterexample to claim C7: at a concrete call the single request that
is opened carries an empty header list — `_send` builds `requestOptions`
with no `headers` field at all — so no header indicates JSON content. -/
theorem C7_counterexample_no_json_header :
    connectsOf (sendEvents ⟨"http://localhost:7076", true⟩ "block_count" none
        ⟨200, ["\x7b\x7d"]⟩)
      = [(Lib.http, mkRequestOptions (parseURL "http://localhost:7076/"))]
    ∧ (mkRequestOptions (parseURL "http://localhost:7076/")).headers = []
    ∧ ¬ indicatesJsonContent (mkRequestOptions (parseURL "http://localhost:7076/")) := by
  refine ⟨rfl, rfl, ?_⟩
  intro h
  rcases h with ⟨kv, hmem, _⟩
  simp [mkRequestOptions] at hmem

/-- Claim C7, amended: every successful build opens exactly one request at
the parsed destination and writes exactly the descriptor body, and the
method is POST — but the request options carry an empty header list, so no
header indicates JSON content. -/
theorem C7_single_post_without_json_header (c : RaiClient) (action : String)
    (params : Option (List (String × JsValue))) (resp : Response) (req : RPCReq)
    (hok : buildRPCReq c action params = Except.ok req) :
    connectsOf (sendEvents c action params resp)
      = [(libFor (parseURL req.url), mkRequestOptions (parseURL req.url))]
    ∧ writesOf (sendEvents c action params resp) = [req.body]
    ∧ (mkRequestOptions (parseURL req.url)).method = "POST"
    ∧ (mkRequestOptions (parseURL req.url)).headers = []
    ∧ ¬ indicatesJsonContent (mkRequestOptions (parseURL req.url)) := by
  refine ⟨?_, ?_, rfl, rfl, ?_⟩
  · unfold sendEvents
    rw [hok]
    by_cases hs : resp.statusCode < 200 ∨ 299 < resp.statusCode <;>
      by_cases hd : c.deserializeJSON = false <;>
        rcases hp : parseJson (String.join resp.chunks) with _ | v <;>
          simp [connectsOf, hs, hd, hp]
  · unfold sendEvents
    rw [hok]
    by_cases hs : resp.statusCode < 200 ∨ 299 < resp.statusCode <;>
      by_cases hd : c.deserializeJSON = false <;>
        rcases hp : parseJson (String.join resp.chunks) with _ | v <;>
          simp [writesOf, hs, hd, hp]
  · intro h
    rcases h with ⟨kv, hmem, _⟩
    simp [mkRequestOptions] at hmem

/-- Witness for the amended C7: the concrete `block_count` call opens one
POST with the serialized body and an empty header list. -/
theorem C7_witness :
    connectsOf (sendEvents ⟨"http://localhost:7076", false⟩ "block_count" none
        ⟨200, ["ok"]⟩)
      = [(libFor (parseURL "http://localhost:7076/"),
          mkRequestOptions (parseURL "http://localhost:7076/"))]
    ∧ writesOf (sendEvents ⟨"http://localhost:7076", false⟩ "block_count" none
        ⟨200, ["ok"]⟩) = ["\x7b\"action\":\"block_count\"\x7d"]
    ∧ (mkRequestOptions (parseURL "http://localhost:7076/")).method = "POST"
    ∧ (mkRequestOptions (parseURL "http://localhost:7076/")).headers = []
    ∧ ¬ indicatesJsonContent (mkRequestOptions (parseURL "http://localhost:7076/")) :=
  C7_single_post_without_json_header ⟨"http://localhost:7076", false⟩ "block_count" none
    ⟨200, ["ok"]⟩ ⟨"http://localhost:7076/", "\x7b\"action\":\"block_count\"\x7d"⟩ (by rfl)

/-- Claim C8 fails in the code: `representatives(count = 1, sorting = false)`
calls `this._send("representatives")` with no parameter object at all, so
the explicit arguments `count = 5`, `sorting = true` never reach the
request body; `accounts_create(accounts, count = 1, work = false)` forwards
only `accounts` and `count`, dropping its `work` argument. -/
theorem C8_declared_params_dropped :
    (representatives (some (.num 5)) (some (.bool true))).params = none
    ∧ buildRPCReq ⟨"http://localhost:7076", true⟩
        (representatives (some (.num 5)) (some (.bool true))).action
        (representatives (some (.num 5)) (some (.bool true))).params
      = Except.ok ⟨"http://localhost:7076/", "\x7b\"action\":\"representatives\"\x7d"⟩
    ∧ (accounts_create (.str "xrb_account") (some (.num 1)) (some (.bool true))).params
      = some [("accounts", .str "xrb_account"), ("count", .num 1)]
    ∧ List.lookup "work"
        (((accounts_create (.str "xrb_account") (some (.num 1))
            (some (.bool true))).params).getD [])
      = none := by
  refine ⟨rfl, ?_, rfl, rfl⟩
  rfl

/-- Claim C9 fails in the code: the two `_send` implementations are not
observably equivalent.  On the same client (`deserializeJSON = true`),
action and well-formed JSON response body, the `http`/`https`
implementation resolves with the parsed JSON value, while the
request-library implementation reads `this.deserializeJSON` inside a plain
(non-arrow) callback where `this` is not the client — the lookup yields
`undefined`, which is falsy — and resolves with the raw string instead. -/
theorem C9_implementations_differ :
    sendOutcome ⟨"http://localhost:7076", true⟩ "block_count" none
        ⟨200, ["\x7b\"count\":\"1\"\x7d"]⟩
      = some (.resolve (.json (.obj [("count", .str "1")])))
    ∧ sendOutcomeRequestLib ⟨"http://localhost:7076", true⟩ "block_count" none
        none "\x7b\"count\":\"1\"\x7d"
      = some (.resolve (.raw "\x7b\"count\":\"1\"\x7d"))
    ∧ SendResult.json (.obj [("count", .str "1")])
        ≠ SendResult.raw "\x7b\"count\":\"1\"\x7d" :=
  ⟨rfl, rfl, fun h => SendResult.noConfusion h⟩

/-- Claim C10: whenever `accounts_pending` is called without a threshold
argument, the `threshold` field it forwards is the IEEE-754 double nearest
to the source literal `1000000000000000000000000`, namely
`999999999999999983222784` (which `JSON.stringify` prints as `1e+24`), and
that value differs from the exact decimal integer in the source text. -/
theorem C10_accounts_pending_threshold (accounts : JsValue)
    (count source : Option JsValue) :
    List.lookup "threshold"
        (((accounts_pending accounts count none source).params).getD [])
      = some (.num 999999999999999983222784)
    ∧ jsNumberLiteral 1000000000000000000000000 = 999999999999999983222784
    ∧ (999999999999999983222784 : Int) ≠ 10 ^ 24
    ∧ emitNum 999999999999999983222784 = "1e+24".data := by
  refine ⟨?_, by decide, by decide, by decide⟩
  rfl
